import Mathlib

/-!
Verification development for the finite model builder core
(FMB/FiniteModelBuilder.cpp): a shallow embedding of the SAT variable
layout (reset and getSATLiteral), of the clause emitters (ground
instances, functional definitions, totality definitions), of the Mode-B
no-good machinery (buildNogood, checkConstriant, the per-candidate
acceptance tests of increaseModelSizes), of the CONTOUR distinct-sort
constraint fixpoint, and of the driver decisions of runImpl, together
with theorems checking the specified properties against this embedding.

The C++ code computes SAT variable ids in 32-bit unsigned arithmetic;
the embedding makes the wrap-around explicit through mod 2^32 operations.
-/

namespace FMB

/-! ## 32-bit unsigned arithmetic -/

def U32 : Nat := 2 ^ 32

/-- Addition of two `unsigned` values (wrap-around modulo 2^32). -/
def add32 (a b : Nat) : Nat := (a + b) % U32

/-- Multiplication of two `unsigned` values (wrap-around modulo 2^32). -/
def mul32 (a b : Nat) : Nat := (a * b) % U32

/-- Subtraction `a - b` of two `unsigned` values (wrap-around modulo 2^32);
`a` and `b` are assumed reduced (below 2^32). -/
def sub32 (a b : Nat) : Nat := (U32 + a - b) % U32

/-! ## Groundings and the mixed-radix value

A grounding of a symbol is a tuple of domain elements, each in
`{1, …, r}` for the size `r` of the corresponding slot sort.  `mixedRadix`
is the value `Σ (gᵢ − 1) × Π_{j<i} rⱼ` accumulated by `getSATLiteral`. -/

/-- Mixed-radix value of digit tuple `g` (1-based digits) for radices `rs`:
`Σᵢ (gᵢ − 1) × Π_{j<i} rⱼ`, in exact (unbounded) arithmetic. -/
def mixedRadix : List Nat → List Nat → Nat
  | g :: gs, r :: rs => (g - 1) + r * mixedRadix gs rs
  | _, _ => 0

/-- Whether tuple `g` is a grounding for radices `rs`: same length and each
digit in `{1, …, rᵢ}`. -/
def inRange : List Nat → List Nat → Bool
  | [], [] => true
  | g :: gs, r :: rs => decide (1 ≤ g) && decide (g ≤ r) && inRange gs rs
  | _, _ => false

/-- All groundings for the given per-slot maxima, leftmost slot slowest —
the explicit form of the goto-driven odometer enumerations of the source. -/
def tuples : List Nat → List (List Nat)
  | [] => [[]]
  | m :: ms => (List.range m).flatMap (fun v => (tuples ms).map (fun t => (v + 1) :: t))

theorem mem_tuples {ms : List Nat} {g : List Nat} :
    g ∈ tuples ms ↔ inRange g ms = true := by
  induction ms generalizing g with
  | nil =>
    cases g <;> simp [tuples, inRange]
  | cons m ms ih =>
    cases g with
    | nil => simp [tuples, inRange]
    | cons a t =>
      simp only [tuples, List.mem_flatMap, List.mem_map, List.mem_range, inRange,
        Bool.and_eq_true, decide_eq_true_eq]
      constructor
      · rintro ⟨v, hv, t2, ht2, heq⟩
        obtain ⟨rfl, rfl⟩ : v + 1 = a ∧ t2 = t := by
          constructor <;> [exact (List.cons.injEq _ _ _ _ ▸ heq).1;
            exact (List.cons.injEq _ _ _ _ ▸ heq).2]
        exact ⟨⟨Nat.le_add_left 1 v, hv⟩, ih.mp ht2⟩
      · rintro ⟨⟨h1, h2⟩, ht⟩
        exact ⟨a - 1, by omega, t, ih.mpr ht, by congr 1; omega⟩

/-! ## SAT literals and clauses -/

/-- A SAT literal: a variable id with a polarity (`pos = true` for the
positive literal). -/
structure SLit where
  var : Nat
  pos : Bool
deriving DecidableEq

/-- A propositional clause as emitted to the SAT solver. -/
abbrev SATClause := List SLit

/-- An assignment satisfies a clause when some literal evaluates true. -/
def satClause (asg : Nat → Bool) (cl : SATClause) : Prop :=
  ∃ l ∈ cl, asg l.var = l.pos

instance (asg : Nat → Bool) (cl : SATClause) : Decidable (satClause asg cl) := by
  unfold satClause; infer_instance

/-! ## The builder state read by the clause emitters

Fields mirror the member variables of `FiniteModelBuilder` that the
emitters consult: the (sorted-signature) slot sorts of each symbol, the
per-source-sort current model sizes and bounds, the distinct-sort data,
and the offsets produced by `reset`.  Predicate index 0 is the equality
predicate, which is never encoded. -/

structure Builder where
  nFuns : Nat
  del_f : Nat → Bool
  funSig : Nat → List Nat
  predSig : Nat → List Nat
  sortModelSizes : Nat → Nat
  sortBounds : Nat → Nat
  parents : Nat → Nat
  monotonicSorts : Nat → Bool
  distinctSortSizes : List Nat
  xmass : Bool
  f_offsets : Nat → Nat
  p_offsets : Nat → Nat
  marker_offsets : Nat → Nat
  totalityMarker_offset : Nat
  instancesMarker_offset : Nat

/-- The running accumulation of `getSATLiteral`: `var += mult*(gᵢ−1);
mult *= size(sortᵢ)`, in 32-bit unsigned arithmetic. -/
def varIdLoop : Nat → Nat → List Nat → List Nat → Nat
  | var, mult, r :: rs, g :: gs => varIdLoop (add32 var (mul32 mult (g - 1))) (mul32 mult r) rs gs
  | var, _, _, _ => var

/-- The SAT variable id computed by `getSATLiteral` for a symbol with the
given block offset and per-slot radices (current sizes of the slot sorts). -/
def varIdU32 (offset : Nat) (radices grounding : List Nat) : Nat :=
  varIdLoop offset 1 radices grounding

/-- Embedding of `FiniteModelBuilder::getSATLiteral`: offset of the symbol
plus the mixed-radix accumulation over the grounding. -/
def getSATLiteral (b : Builder) (f : Nat) (grounding : List Nat)
    (polarity : Bool) (isFunction : Bool) : SLit :=
  let offset := if isFunction then b.f_offsets f else b.p_offsets f
  let signature := if isFunction then b.funSig f else b.predSig f
  ⟨varIdU32 offset (signature.map b.sortModelSizes) grounding, polarity⟩

/-- Result sort of a function: the last slot of its signature. -/
def retSort (b : Builder) (f : Nat) : Nat := (b.funSig f).getLastD 0

/-- Per-argument grounding bounds `min(sortBound, sortModelSize)` for the
argument slots of function `f` (all slots but the last). -/
def maxArgSizes (b : Builder) (f : Nat) : List Nat :=
  (b.funSig f).dropLast.map (fun s => min (b.sortBounds s) (b.sortModelSizes s))

/-- Grounding bound `min(sortBound, sortModelSize)` of the result slot. -/
def maxRetSize (b : Builder) (f : Nat) : Nat :=
  min (b.sortBounds (retSort b f)) (b.sortModelSizes (retSort b f))

/-- Distinct-sort parent of the result sort of `f`. -/
def retDSort (b : Builder) (f : Nat) : Nat := b.parents (retSort b f)

/-- Current size of the distinct sort `d`. -/
def dSize (b : Builder) (d : Nat) : Nat := b.distinctSortSizes.getD d 0

/-! ## Functional-definition clauses (addNewFunctionalDefs)

For each function `f` the source enumerates groundings `[y, z, x₁ … xₙ]`
over bounds `[maxRet, maxRet, argBounds…]`, skips the instances with
`y ≥ z`, and emits `¬(f(x̄) = y) ∨ ¬(f(x̄) = z)`. -/

def funcDefClauses (b : Builder) (f : Nat) : List SATClause :=
  (tuples (maxRetSize b f :: maxRetSize b f :: maxArgSizes b f)).filterMap (fun g =>
    match g with
    | y :: z :: xs =>
      if y < z then
        some [getSATLiteral b f (xs ++ [y]) false true,
              getSATLiteral b f (xs ++ [z]) false true]
      else none
    | _ => none)

/-! ## Totality clauses (addNewTotalityDefs)

For each function and argument tuple, one clause per candidate result
cardinality `i`: the disjunction `f(x̄) = 1 ∨ … ∨ f(x̄) = i` closed by a
marker literal.  In CONTOUR mode (`xmass`) all versions `i = 1 … maxRet`
are emitted for a non-monotonic result sort, only the weakest (`i =
maxRet`) otherwise; in SBMEAM mode only `i = maxRet` with the negative
totality marker of the distinct result sort. -/

def totVersions (b : Builder) (f : Nat) : List Nat :=
  if b.xmass && !(b.monotonicSorts (retDSort b f)) then
    (List.range (maxRetSize b f)).map (· + 1)
  else [maxRetSize b f]

/-- The marker literal closing the totality clause of version `i`: in
CONTOUR mode the positive marker `marker[s]` at index `size[s]−1` for the
top version and `i−1` otherwise (source comment: use the largest marker
for the largest version even if it is smaller than `_distinctSortSizes`),
in SBMEAM mode the negative totality marker of the distinct result sort. -/
def totMarkerLit (b : Builder) (f : Nat) (i : Nat) : SLit :=
  if b.xmass then
    ⟨b.marker_offsets (retDSort b f) +
      (if i = maxRetSize b f then dSize b (retDSort b f) - 1 else i - 1), true⟩
  else ⟨b.totalityMarker_offset + retDSort b f, false⟩

def totalityClauses (b : Builder) (f : Nat) : List SATClause :=
  (tuples (maxArgSizes b f)).flatMap (fun xs =>
    (totVersions b f).map (fun i =>
      ((List.range i).map (fun c => getSATLiteral b f (xs ++ [c + 1]) true true))
        ++ [totMarkerLit b f i]))

/-- The assumption literals passed to `solveUnderAssumptions` for one query
(runImpl): in CONTOUR mode the negative top marker of every distinct sort,
in SBMEAM mode all totality and instance markers positive. -/
def assumptionLits (b : Builder) : List SLit :=
  if b.xmass then
    (List.range b.distinctSortSizes.length).map
      (fun i => ⟨b.marker_offsets i + (dSize b i - 1), false⟩)
  else
    (List.range b.distinctSortSizes.length).map
      (fun i => ⟨b.totalityMarker_offset + i, true⟩)
    ++ (List.range b.distinctSortSizes.length).map
      (fun i => ⟨b.instancesMarker_offset + i, true⟩)

/-! ## The per-grounding literal translation of addNewInstances

A flat clause consists of two-variable equalities, function equations
`±(f(x₁…xₙ) = y)` and predicate literals over variables.  For one
grounding the source walks the literals, translating each to a SAT
literal; a two-variable equality is never translated: it either skips the
whole grounding (result `none`: no SAT clause emitted for it) or is
omitted from the emitted clause. -/

inductive FlatLit where
  | varEq (pos : Bool) (x y : Nat)
  | funEq (pos : Bool) (f : Nat) (argVars : List Nat) (resVar : Nat)
  | prd (pos : Bool) (p : Nat) (argVars : List Nat)
deriving DecidableEq

/-- Translation of one grounded flat clause into SAT literals (the literal
loop of `addNewInstances`); `none` means the grounding is skipped. -/
def groundLits (b : Builder) (g : Nat → Nat) : List FlatLit → Option (List SLit)
  | [] => some []
  | FlatLit.varEq pos x y :: rest =>
    let equal := g x == g y
    if (pos && equal) || (!pos && !equal) then none
    else groundLits b g rest
  | FlatLit.funEq pos f argVars rv :: rest =>
    match groundLits b g rest with
    | none => none
    | some ls => some (getSATLiteral b f (argVars.map g ++ [g rv]) pos true :: ls)
  | FlatLit.prd pos p argVars :: rest =>
    match groundLits b g rest with
    | none => none
    | some ls => some (getSATLiteral b p (argVars.map g) pos false :: ls)

/-! ## Mode-B no-good learning and the constraint-generator tests -/

/-- The tag of one entry of a constraint-generator vector. -/
inductive ConstraintSign where
  | EQ
  | LEQ
  | GEQ
  | STAR
deriving DecidableEq

/-- One entry per distinct sort: a tag and the remembered size. -/
abbrev CGVals := List (ConstraintSign × Nat)

/-- Initial no-good vector: every sort is `STAR` at its current size. -/
def nogoodInit (dsizes : List Nat) : CGVals :=
  dsizes.map (fun d => (ConstraintSign.STAR, d))

/-- Processing of one failed assumption variable (runImpl, SBMEAM branch):
a totality-marker variable tags its sort `EQ` (`LEQ` when monotonic), an
instances-marker variable tags its sort `GEQ` when it is still `STAR`. -/
def nogoodStep (totOff instOff : Nat) (mono : Nat → Bool) (ng : CGVals) (v : Nat) : CGVals :=
  if v < instOff then
    let d := v - totOff
    ng.set d ((if mono d then ConstraintSign.LEQ else ConstraintSign.EQ),
      (ng.getD d (ConstraintSign.STAR, 0)).2)
  else
    let d := v - instOff
    if (ng.getD d (ConstraintSign.STAR, 0)).1 = ConstraintSign.STAR then
      ng.set d (ConstraintSign.GEQ, (ng.getD d (ConstraintSign.STAR, 0)).2)
    else ng

/-- The no-good built from the failed assumption set (runImpl lines
building `nogood` before `learnNogood`). -/
def buildNogood (totOff instOff : Nat) (mono : Nat → Bool)
    (dsizes : List Nat) (failed : List Nat) : CGVals :=
  failed.foldl (nogoodStep totOff instOff mono) (nogoodInit dsizes)

/-- One coordinate of the matching test of `HackyDSAE::checkConstriant`:
`EQ` demands equality, `GEQ` demands the entry be at most the candidate,
`LEQ` demands it be at least the candidate. -/
def ccPass (v : Nat) (cc : ConstraintSign × Nat) : Bool :=
  match cc.1 with
  | ConstraintSign.EQ => cc.2 == v
  | ConstraintSign.GEQ => decide (cc.2 ≤ v)
  | ConstraintSign.LEQ => decide (v ≤ cc.2)
  | ConstraintSign.STAR => true

/-- Embedding of `HackyDSAE::checkConstriant` (the source spelling): `true`
means the candidate size vector matches the constraint and is ruled out. -/
def checkConstriant (newSortSizes : List Nat) (constraint : CGVals) : Bool :=
  (List.range newSortSizes.length).all (fun j =>
    ccPass (newSortSizes.getD j 0) (constraint.getD j (ConstraintSign.STAR, 0)))

/-- The per-candidate acceptance tests of `HackyDSAE::increaseModelSizes`
for the candidate `v` obtained by incrementing coordinate `i` of a popped
generator: the max-size test on the incremented coordinate, the retained
no-good (generator) test, the old-generator test, and the distinct-sort
constraint tests.  `true` means the candidate is accepted and returned as
the next size vector without any further SAT call; `false` means it is
rejected.  (The side effect of pushing artificial child generators on a
constraint rejection is not needed by the claims.) -/
def incrementAccepted (maxes : List Nat) (gens olds : List CGVals) (keepOld : Bool)
    (nonstrict strict : List (Nat × Nat)) (v : List Nat) (i : Nat) : Bool :=
  decide (v.getD i 0 ≤ maxes.getD i 0) &&
  !(gens.any (fun gnrt => checkConstriant v gnrt)) &&
  !(keepOld && olds.any (fun gnrt => checkConstriant v gnrt)) &&
  !(nonstrict.any (fun c => decide (v.getD c.1 0 < v.getD c.2 0))) &&
  !(strict.any (fun c => decide (v.getD c.1 0 ≤ v.getD c.2 0)))

/-! ## The CONTOUR distinct-sort constraint fixpoint (runImpl)

After the chosen sort is incremented the source runs a do-while loop: one
pass applies every non-strict constraint through iterator `it1`; the
second inner loop then constructs iterator `it2` over the strict
constraint stack but tests and advances the already exhausted `it1`, so
its body never executes — the strict constraints are never applied. -/

/-- One non-strict constraint `size[a] ≥ size[b]`: raise `size[a]` to
`size[b]` when violated, recording the update. -/
def passStep (acc : List Nat × Bool) (c : Nat × Nat) : List Nat × Bool :=
  if acc.1.getD c.1 0 < acc.1.getD c.2 0 then (acc.1.set c.1 (acc.1.getD c.2 0), true)
  else acc

/-- One pass of the non-strict distinct-sort constraints `size[a] ≥ size[b]`
in stack order, with the update flag. -/
def nonstrictPass (cs : List (Nat × Nat)) (sizes : List Nat) : List Nat × Bool :=
  cs.foldl passStep (sizes, false)

/-- The do-while constraint loop as the source executes it; the strict
constraint stack is received but — faithfully to the exhausted-iterator
slip — never consulted.  `fuel` bounds the number of do-while rounds. -/
def constraintClosure (fuel : Nat) (nonstrict _strict : List (Nat × Nat))
    (sizes : List Nat) : List Nat :=
  match fuel with
  | 0 => sizes
  | fuel + 1 =>
    let p := nonstrictPass nonstrict sizes
    if p.2 then constraintClosure fuel nonstrict _strict p.1 else p.1

/-- Whether a size vector satisfies every strict constraint `size[a] > size[b]`. -/
def strictHolds (strict : List (Nat × Nat)) (sizes : List Nat) : Bool :=
  strict.all (fun c => decide (sizes.getD c.2 0 < sizes.getD c.1 0))

/-- Whether a size vector satisfies every non-strict constraint `size[a] ≥ size[b]`. -/
def nonstrictHolds (nonstrict : List (Nat × Nat)) (sizes : List Nat) : Bool :=
  nonstrict.all (fun c => decide (sizes.getD c.2 0 ≤ sizes.getD c.1 0))

/-! ## Driver results and decisions (runImpl) -/

inductive FmbStatus where
  | satisfiable
  | refutation
  | refutationNotFound
  | timeLimit
  | inappropriate
deriving DecidableEq

inductive InfRule where
  | modelNotFound
  | input
deriving DecidableEq

/-- The outcome of the main loop: a status, and for a refutation the
inference rule of the produced empty clause. -/
structure MainLoopResult where
  status : FmbStatus
  emptyClauseRule : Option InfRule
deriving DecidableEq

/-- One driver step after UNSAT: either a new size vector to re-encode, or
a final result. -/
inductive DriverStep where
  | nextSizes (sizes : List Nat)
  | finished (r : MainLoopResult)
deriving DecidableEq

/-- The SBMEAM/SMT branch of runImpl after UNSAT: if `increaseModelSizes`
produced a new vector the loop continues; otherwise a complete strategy
yields a refutation by an empty clause with rule MODEL_NOT_FOUND, an
incomplete one gives up (REFUTATION_NOT_FOUND). -/
def modeBUnsatStep (complete increased : Bool) (newSizes : List Nat) : DriverStep :=
  if increased then DriverStep.nextSizes newSizes
  else if complete then
    DriverStep.finished ⟨FmbStatus.refutation, some InfRule.modelNotFound⟩
  else DriverStep.finished ⟨FmbStatus.refutationNotFound, none⟩

/-- The CONTOUR branch of runImpl after UNSAT: if no failed sort may grow
(`domsWeight` stayed `UINT_MAX`) the driver returns a refutation by an
empty clause with rule MODEL_NOT_FOUND. -/
def contourUnsatStep (canGrow : Bool) (newSizes : List Nat) : DriverStep :=
  if canGrow then DriverStep.nextSizes newSizes
  else DriverStep.finished ⟨FmbStatus.refutation, some InfRule.modelNotFound⟩

/-- Events of the search proper (everything after the early returns of
runImpl): building an encoding, calling the SAT solver. -/
inductive RunEvent where
  | encodeBuilt
  | satSolved
deriving DecidableEq

/-- The entry of `runImpl`: an inappropriate problem returns immediately;
a problem with no units at all returns SATISFIABLE immediately; only
otherwise does the search (`rest`, producing its own events) run. -/
def runImplStart (isAppropriate hasUnits : Bool)
    (rest : MainLoopResult × List RunEvent) : MainLoopResult × List RunEvent :=
  if !isAppropriate then (⟨FmbStatus.inappropriate, none⟩, [])
  else if !hasUnits then (⟨FmbStatus.satisfiable, none⟩, [])
  else rest

/-- Initial per-distinct-sort sizes of runImpl:
`max(startModelSize, distinctSortMins[i])` — no clamping against the
detected maxima. -/
def initialSortSizes (startModelSize : Nat) (mins : List Nat) : List Nat :=
  mins.map (fun m => max startModelSize m)

/-! ## The variable layout (reset)

`reset` walks the non-deleted functions in signature order, then the
non-deleted predicates (the loop starts at predicate 1: equality is never
encoded), records each symbol's block offset and advances by the product
of its slot sizes, checking at every multiplication for unsigned overflow
(`n_add < add`) and at every advance that the offset capacity is not
exceeded (`VAR_MAX − add < offsets`); the marker region(s) follow with the
same capacity check.  On any failed check it returns false — *cannot
encode* — before the SAT solver instance is allocated; only on success is
the solver created, seeded with `curMaxVar = offsets − 1`. -/

/-- A symbol as the layout walk sees it: its deleted flag and its slot
sorts (functions: arity+1 slots with the result last; predicates: arity
slots). -/
structure FSym where
  deleted : Bool
  sig : List Nat
deriving DecidableEq

/-- The block-size accumulation with per-step overflow check
(`n_add = add * size; if (n_add < add) return false`). -/
def blockLoop (sizes : Nat → Nat) : Nat → List Nat → Option Nat
  | add, [] => some add
  | add, s :: rest =>
    if mul32 add (sizes s) < add then none
    else blockLoop sizes (mul32 add (sizes s)) rest

/-- Block size of one symbol: for a function the accumulator starts at the
size of slot 0 (that first multiplication is unchecked in the source), for
a predicate at 1. -/
def symBlock (sizes : Nat → Nat) (isFun : Bool) (sig : List Nat) : Option Nat :=
  if isFun then
    match sig with
    | [] => some 1
    | s :: rest => blockLoop sizes (sizes s) rest
  else blockLoop sizes 1 sig

/-- The offset walk over one symbol list: deleted symbols record no offset,
every other symbol records the running offset and advances it by its block
size, subject to the overflow and capacity checks. -/
def symWalk (vmax : Nat) (sizes : Nat → Nat) (isFun : Bool) :
    List FSym → Nat → Option (List (Option Nat) × Nat)
  | [], off => some ([], off)
  | sym :: rest, off =>
    if sym.deleted then
      match symWalk vmax sizes isFun rest off with
      | none => none
      | some (os, fin) => some (none :: os, fin)
    else
      match symBlock sizes isFun sym.sig with
      | none => none
      | some add =>
        if sub32 vmax add < off then none
        else
          match symWalk vmax sizes isFun rest (add32 off add) with
          | none => none
          | some (os, fin) => some (some off :: os, fin)

/-- The CONTOUR marker region walk: one block per distinct sort, of size
equal to the sort's current size, with the capacity check. -/
def markerWalk (vmax : Nat) : List Nat → Nat → Option (List Nat × Nat)
  | [], off => some ([], off)
  | d :: rest, off =>
    if sub32 vmax d < off then none
    else
      match markerWalk vmax rest (add32 off d) with
      | none => none
      | some (ms, fin) => some (off :: ms, fin)

/-- The offset tables produced by a successful reset. -/
structure Layout where
  f_off : List (Option Nat)
  p_off : List (Option Nat)
  marker_off : List Nat
  totalityMarker : Nat
  instancesMarker : Nat
  curMaxVar : Nat
deriving DecidableEq

/-- Result of reset: either *cannot encode* (returned before the SAT
solver instance is allocated) or the finished layout (after which the
solver is created and sized to `curMaxVar`). -/
inductive ResetResult where
  | cannotEncode
  | ready (L : Layout)
deriving DecidableEq

/-- Whether the reset path allocates the SAT solver: only the successful
path reaches `new MinisatInterfacingNewSimp`. -/
def solverAllocated : ResetResult → Bool
  | ResetResult.cannotEncode => false
  | ResetResult.ready _ => true

/-- Embedding of `FiniteModelBuilder::reset`: functions from offset 1,
then predicates, then the marker region — per-sort marker blocks in
CONTOUR mode (`xmass`), two blocks of one variable per distinct sort
(totality markers then instance markers) in SBMEAM mode. -/
def reset (vmax : Nat) (sizes : Nat → Nat) (funs preds : List FSym)
    (dsizes : List Nat) (xmass : Bool) : ResetResult :=
  match symWalk vmax sizes true funs 1 with
  | none => ResetResult.cannotEncode
  | some (fOff, off1) =>
    match symWalk vmax sizes false preds off1 with
    | none => ResetResult.cannotEncode
    | some (pOff, off2) =>
      if xmass then
        match markerWalk vmax dsizes off2 with
        | none => ResetResult.cannotEncode
        | some (ms, fin) => ResetResult.ready ⟨fOff, pOff, ms, 0, 0, fin - 1⟩
      else
        let add := dsizes.length
        if sub32 vmax add < off2 then ResetResult.cannotEncode
        else
          let off3 := add32 off2 add
          if sub32 vmax add < off3 then ResetResult.cannotEncode
          else ResetResult.ready ⟨fOff, pOff, [], off2, off3, add32 off3 add - 1⟩

/-! ### The nominal (exact-arithmetic) layout -/

/-- Per-slot radices of a symbol: current sizes of its slot sorts. -/
def radicesOf (sizes : Nat → Nat) (sym : FSym) : List Nat := sym.sig.map sizes

/-- The non-deleted symbols, in signature order. -/
def liveSyms (syms : List FSym) : List FSym := syms.filter (fun sym => !sym.deleted)

/-- The block radices of the non-deleted symbols, in layout order. -/
def blocksOf (sizes : Nat → Nat) (syms : List FSym) : List (List Nat) :=
  (liveSyms syms).map (radicesOf sizes)

/-- Total number of SAT variables of a region of blocks. -/
def blocksSum (bs : List (List Nat)) : Nat := (bs.map List.prod).sum

/-- Consecutive block offsets starting at `start` (exact arithmetic). -/
def layoutOffsets (start : Nat) : List (List Nat) → List Nat
  | [] => []
  | rs :: rest => start :: layoutOffsets (start + rs.prod) rest

/-- First free id after a region of blocks laid out from `start`. -/
def layoutEnd (start : Nat) (bs : List (List Nat)) : Nat := start + blocksSum bs

/-- The nominal offset column of one symbol list (`none` at deleted symbols). -/
def offListOf (sizes : Nat → Nat) (off : Nat) : List FSym → List (Option Nat)
  | [] => []
  | sym :: rest =>
    if sym.deleted then none :: offListOf sizes off rest
    else some off :: offListOf sizes (off + (radicesOf sizes sym).prod) rest

/-- Nominal marker offsets (CONTOUR): consecutive per-sort blocks. -/
def markerOffList (off : Nat) : List Nat → List Nat
  | [] => []
  | d :: rest => off :: markerOffList (off + d) rest

/-- Size of the marker region: per-sort blocks in CONTOUR mode, two
one-variable blocks per distinct sort in SBMEAM mode. -/
def markerTotal (xmass : Bool) (dsizes : List Nat) : Nat :=
  if xmass then dsizes.sum else 2 * dsizes.length

/-- Offset of the `k`-th block of a region laid out from `start`. -/
def blockOff (start : Nat) (bs : List (List Nat)) (k : Nat) : Nat :=
  (layoutOffsets start bs).getD k 0

/-- The nominal SAT variable of grounding `g` of the `k`-th block: block
offset plus mixed-radix value. -/
def blockVarId (start : Nat) (bs : List (List Nat)) (k : Nat) (g : List Nat) : Nat :=
  blockOff start bs k + mixedRadix g (bs.getD k [])

/-- Whether a size vector is within the per-sort `[min, max]` window. -/
def withinBounds (mins maxs sizes : List Nat) : Prop :=
  ∀ i < sizes.length, mins.getD i 0 ≤ sizes.getD i 0 ∧ sizes.getD i 0 ≤ maxs.getD i 0

instance (mins maxs sizes : List Nat) : Decidable (withinBounds mins maxs sizes) := by
  unfold withinBounds; infer_instance

/-! ## Helper lemmas on lists -/

theorem getD_set_self {α : Type} : ∀ (l : List α) (i : Nat), i < l.length →
    ∀ (a d : α), (l.set i a).getD i d = a
  | _ :: _, 0, _, _, _ => rfl
  | _ :: xs, i + 1, h, a, d => by
    simpa [List.getD_cons_succ] using getD_set_self xs i (by simpa using h) a d
  | [], i, h, _, _ => absurd h (by simp)

theorem getD_set_ne {α : Type} : ∀ (l : List α) (i j : Nat), i ≠ j →
    ∀ (a d : α), (l.set i a).getD j d = l.getD j d
  | [], _, _, _, _, _ => by simp
  | _ :: _, 0, 0, h, _, _ => absurd rfl h
  | _ :: _, 0, _ + 1, _, _, _ => by simp [List.getD_cons_succ]
  | _ :: _, _ + 1, 0, _, _, _ => by simp [List.getD_cons_zero]
  | x :: xs, i + 1, j + 1, h, a, d => by
    simpa [List.getD_cons_succ] using getD_set_ne xs i j (by omega) a d

theorem getD_set_le (l : List Nat) (j a i : Nat) (h : l.getD j 0 ≤ a) :
    l.getD i 0 ≤ (l.set j a).getD i 0 := by
  by_cases hlen : l.length ≤ j
  · rw [List.set_eq_of_length_le hlen]
  · by_cases hij : j = i
    · subst hij
      rw [getD_set_self l j (by omega) a 0]
      exact h
    · rw [getD_set_ne l j i hij a 0]

/-! ## C3: the four-case rule for two-variable equalities -/

theorem groundLits_cons_congr (b : Builder) (g : Nat → Nat) (l : FlatLit)
    {r1 r2 : List FlatLit} (h : groundLits b g r1 = groundLits b g r2) :
    groundLits b g (l :: r1) = groundLits b g (l :: r2) := by
  cases l <;> simp only [groundLits, h]

theorem groundLits_cons_none (b : Builder) (g : Nat → Nat) (l : FlatLit)
    {r : List FlatLit} (h : groundLits b g r = none) :
    groundLits b g (l :: r) = none := by
  cases l <;> simp only [groundLits, h] <;> split <;> rfl

/-- C3: for every position of a two-variable equality literal `x = y` in a
flat clause and every grounding, the instance emitter follows the
four-case rule — positive and grounded equal: the whole grounding is
skipped (no SAT clause is emitted for it); positive and grounded
different: only that literal is omitted; negative and grounded different:
the whole grounding is skipped; negative and grounded equal: only that
literal is omitted. -/
theorem c3_two_var_equality_cases (b : Builder) (g : Nat → Nat)
    (pre post : List FlatLit) (x y : Nat) :
    (g x = g y → groundLits b g (pre ++ FlatLit.varEq true x y :: post) = none) ∧
    (g x ≠ g y → groundLits b g (pre ++ FlatLit.varEq true x y :: post)
        = groundLits b g (pre ++ post)) ∧
    (g x ≠ g y → groundLits b g (pre ++ FlatLit.varEq false x y :: post) = none) ∧
    (g x = g y → groundLits b g (pre ++ FlatLit.varEq false x y :: post)
        = groundLits b g (pre ++ post)) := by
  induction pre with
  | nil =>
    refine ⟨fun h => ?_, fun h => ?_, fun h => ?_, fun h => ?_⟩ <;>
      simp [groundLits, h, beq_iff_eq]
  | cons l pre ih =>
    obtain ⟨ih1, ih2, ih3, ih4⟩ := ih
    exact ⟨fun h => groundLits_cons_none b g l (ih1 h),
           fun h => groundLits_cons_congr b g l (ih2 h),
           fun h => groundLits_cons_none b g l (ih3 h),
           fun h => groundLits_cons_congr b g l (ih4 h)⟩

/-- Witness for C3 at a concrete clause and grounding. -/
theorem c3_two_var_equality_cases_witness :
    (groundLits
        ⟨0, fun _ => false, fun _ => [], fun _ => [], fun _ => 1, fun _ => 1, fun _ => 0,
          fun _ => false, [1], true, fun _ => 1, fun _ => 1, fun _ => 2, 0, 0⟩
        (fun v => v) [FlatLit.varEq true 1 1, FlatLit.prd true 1 []] = none) ∧
    (groundLits
        ⟨0, fun _ => false, fun _ => [], fun _ => [], fun _ => 1, fun _ => 1, fun _ => 0,
          fun _ => false, [1], true, fun _ => 1, fun _ => 1, fun _ => 2, 0, 0⟩
        (fun v => v) [FlatLit.varEq false 1 1, FlatLit.prd true 1 []]
      = groundLits
        ⟨0, fun _ => false, fun _ => [], fun _ => [], fun _ => 1, fun _ => 1, fun _ => 0,
          fun _ => false, [1], true, fun _ => 1, fun _ => 1, fun _ => 2, 0, 0⟩
        (fun v => v) [FlatLit.prd true 1 []]) :=
  ⟨(c3_two_var_equality_cases _ (fun v => v) [] [FlatLit.prd true 1 []] 1 1).1 rfl,
   (c3_two_var_equality_cases _ (fun v => v) [] [FlatLit.prd true 1 []] 1 1).2.2.2 rfl⟩

/-! ## C9: the enumerator-exhausted outcome -/

/-- C9: when the enumerator can produce no further candidate size vector,
the driver returns REFUTATION with an empty clause carrying rule
MODEL_NOT_FOUND if the strategy is complete and REFUTATION_NOT_FOUND
otherwise (SBMEAM/SMT branch); the CONTOUR branch, which never consults a
completeness test, returns the MODEL_NOT_FOUND refutation. -/
theorem c9_enumerator_exhausted (complete : Bool) (newSizes : List Nat) :
    modeBUnsatStep complete false newSizes
      = DriverStep.finished
          (if complete then ⟨FmbStatus.refutation, some InfRule.modelNotFound⟩
           else ⟨FmbStatus.refutationNotFound, none⟩) ∧
    contourUnsatStep false newSizes
      = DriverStep.finished ⟨FmbStatus.refutation, some InfRule.modelNotFound⟩ := by
  cases complete <;> simp [modeBUnsatStep, contourUnsatStep]

/-! ## C10: a problem without units is satisfiable immediately -/

/-- C10: for an appropriate problem with no units at all, runImpl returns
SATISFIABLE immediately — for every possible continuation `rest` of the
search, the result is SATISFIABLE with an empty event list: no encoding is
built and the SAT solver is never called. -/
theorem c10_no_units_satisfiable (rest : MainLoopResult × List RunEvent) :
    runImplStart true false rest = (⟨FmbStatus.satisfiable, none⟩, []) := by
  simp [runImplStart]

/-! ## C7: the strict distinct-sort constraints are never applied -/

/-- C7 (code bug): at the failing input — sizes `[2, 2]` after the chosen
sort 1 was incremented, one strict constraint `size[0] > size[1]`, no
non-strict constraints — the constraint loop of runImpl returns `[2, 2]`
unchanged, violating the strict constraint, because its second inner loop
tests the already exhausted non-strict iterator `it1` instead of `it2`.
The specified behaviour (close both constraint families under fixpoint)
would require `size[0] = 3`. -/
theorem c7_strict_constraints_dead :
    constraintClosure 5 [] [(0, 1)] [2, 2] = [2, 2] ∧
    strictHolds [(0, 1)] (constraintClosure 5 [] [(0, 1)] [2, 2]) = false := by
  decide

/-! ## C8: sizes against the `[min, max]` window -/

/-- C8 counterexample: with `min = max = 1` for the single distinct sort
and `startSize = 2`, the initial assignment submitted to the first
encoding is `[2]`, which exceeds the maximum — the claimed invariant fails
at the very first size vector. -/
theorem c8_counterexample :
    initialSortSizes 2 [1] = [2] ∧ ¬ withinBounds [1] [1] (initialSortSizes 2 [1]) := by
  exact ⟨rfl, by decide⟩

theorem passStep_le (acc : List Nat × Bool) (c : Nat × Nat) (i : Nat) :
    acc.1.getD i 0 ≤ (passStep acc c).1.getD i 0 := by
  unfold passStep
  split
  · exact getD_set_le acc.1 c.1 (acc.1.getD c.2 0) i (by omega)
  · exact Nat.le_refl _

theorem foldl_passStep_le (cs : List (Nat × Nat)) :
    ∀ (acc : List Nat × Bool) (i : Nat), acc.1.getD i 0 ≤ (cs.foldl passStep acc).1.getD i 0 := by
  induction cs with
  | nil => exact fun acc i => Nat.le_refl _
  | cons c cs ih =>
    intro acc i
    exact Nat.le_trans (passStep_le acc c i) (ih (passStep acc c) i)

theorem constraintClosure_le (fuel : Nat) (ns st : List (Nat × Nat)) :
    ∀ (szs : List Nat) (i : Nat), szs.getD i 0 ≤ (constraintClosure fuel ns st szs).getD i 0 := by
  induction fuel with
  | zero => exact fun szs i => Nat.le_refl _
  | succ fuel ih =>
    intro szs i
    rw [show constraintClosure (fuel + 1) ns st szs
        = (if (nonstrictPass ns szs).2 then constraintClosure fuel ns st (nonstrictPass ns szs).1
           else (nonstrictPass ns szs).1) from rfl]
    split
    · exact Nat.le_trans (foldl_passStep_le ns (szs, false) i) (ih _ i)
    · exact foldl_passStep_le ns (szs, false) i

/-- C8 amended: every distinct sort's size stays at or above its minimum —
the initial assignment takes `max(startSize, min)` and the sizes only grow
afterwards (shown for the CONTOUR constraint fixpoint) — and a Mode-B
increment accepted by `increaseModelSizes` respects the maximum of the
incremented sort; but the upper bound is not enforced on the initial
assignment (counterexample above) nor by the CONTOUR fixpoint. -/
theorem c8_amended :
    (∀ (start : Nat) (mins : List Nat) (i : Nat),
        mins.getD i 0 ≤ (initialSortSizes start mins).getD i 0) ∧
    (∀ (fuel : Nat) (ns st : List (Nat × Nat)) (szs : List Nat) (i : Nat),
        szs.getD i 0 ≤ (constraintClosure fuel ns st szs).getD i 0) ∧
    (∀ (maxes : List Nat) (gens olds : List CGVals) (keepOld : Bool)
        (ns st : List (Nat × Nat)) (v : List Nat) (i : Nat),
        incrementAccepted maxes gens olds keepOld ns st v i = true →
        v.getD i 0 ≤ maxes.getD i 0) := by
  refine ⟨?_, fun fuel ns st => constraintClosure_le fuel ns st, ?_⟩
  · intro start mins i
    induction mins generalizing i with
    | nil => simp [initialSortSizes]
    | cons m ms ih =>
      cases i with
      | zero => simp [initialSortSizes]
      | succ i => simpa [initialSortSizes, List.getD_cons_succ] using ih i
  · intro maxes gens olds keepOld ns st v i h
    simp only [incrementAccepted, Bool.and_eq_true, decide_eq_true_eq] at h
    exact h.1.1.1.1

/-- Witness for C8 at concrete inputs: the minimum bound at the initial
assignment, growth through the fixpoint, and an accepted Mode-B increment
within its maximum. -/
theorem c8_amended_witness :
    ([1] : List Nat).getD 0 0 ≤ (initialSortSizes 2 [1]).getD 0 0 ∧
    ([2, 2] : List Nat).getD 0 0 ≤ (constraintClosure 5 [] [(0, 1)] [2, 2]).getD 0 0 ∧
    ([2] : List Nat).getD 0 0 ≤ ([3] : List Nat).getD 0 0 :=
  ⟨c8_amended.1 2 [1] 0, c8_amended.2.1 5 [] [(0, 1)] [2, 2] 0,
   c8_amended.2.2 [3] [] [] false [] [] [2] 0 (by decide)⟩

/-! ## C4: Mode-B no-good construction and candidate rejection -/

/-- Boolean membership in a list of variable ids. -/
def memB (a : Nat) (l : List Nat) : Bool := l.any (fun x => x == a)

theorem memB_cons (a x : Nat) (l : List Nat) : memB a (x :: l) = ((x == a) || memB a l) := by
  simp [memB]

/-- Final tag of one sort after processing further failed variables, as a
function of its current tag and whether its totality or instance marker
occurs among them. -/
def resolveTag (cur : ConstraintSign) (tot inst mono : Bool) : ConstraintSign :=
  if tot then (if mono then ConstraintSign.LEQ else ConstraintSign.EQ)
  else if cur ≠ ConstraintSign.STAR then cur
  else if inst then ConstraintSign.GEQ else ConstraintSign.STAR

theorem resolveTag_of_tagged (t i m : Bool) :
    resolveTag (if m then ConstraintSign.LEQ else ConstraintSign.EQ) t i m
      = if m then ConstraintSign.LEQ else ConstraintSign.EQ := by
  cases m <;> cases t <;> simp [resolveTag]

theorem resolveTag_tot (cur : ConstraintSign) (i m : Bool) :
    resolveTag cur true i m = if m then ConstraintSign.LEQ else ConstraintSign.EQ := by
  simp [resolveTag]

theorem resolveTag_geq (t i : Bool) (m : Bool) :
    resolveTag ConstraintSign.GEQ t i m
      = if t then (if m then ConstraintSign.LEQ else ConstraintSign.EQ)
        else ConstraintSign.GEQ := by
  cases t <;> simp [resolveTag]

theorem resolveTag_star (t i m : Bool) :
    resolveTag ConstraintSign.STAR t i m
      = if t then (if m then ConstraintSign.LEQ else ConstraintSign.EQ)
        else if i then ConstraintSign.GEQ else ConstraintSign.STAR := by
  cases t <;> simp [resolveTag]

theorem resolveTag_inst_irrelevant {cur : ConstraintSign} (h : cur ≠ ConstraintSign.STAR)
    (t i1 i2 m : Bool) : resolveTag cur t i1 m = resolveTag cur t i2 m := by
  cases t <;> simp [resolveTag, h]

theorem nogood_fold_char (totOff n : Nat) (mono : Nat → Bool) :
    ∀ (failed : List Nat) (ng : CGVals), ng.length = n →
    (∀ v ∈ failed, totOff ≤ v ∧ v < totOff + n + n) →
    ∀ s, s < n →
    (failed.foldl (nogoodStep totOff (totOff + n) mono) ng).getD s (ConstraintSign.STAR, 0)
      = (resolveTag ((ng.getD s (ConstraintSign.STAR, 0)).1)
          (memB (totOff + s) failed) (memB (totOff + n + s) failed) (mono s),
         (ng.getD s (ConstraintSign.STAR, 0)).2) := by
  intro failed
  induction failed with
  | nil =>
    intro ng _ _ s _
    have hres : ∀ c m, resolveTag c false false m = c := by
      intro c m
      cases c <;> simp [resolveTag]
    simp [memB, hres]
  | cons v rest ih =>
    intro ng hlen hv s hs
    have hvv := hv v (List.mem_cons_self v rest)
    rw [List.foldl_cons]
    by_cases hA : v < totOff + n
    · -- a totality marker variable: sort d = v - totOff gets tag EQ (LEQ if monotonic)
      have hd : v - totOff < n := by omega
      have hveq : v = totOff + (v - totOff) := by omega
      have hstep : nogoodStep totOff (totOff + n) mono ng v
          = ng.set (v - totOff)
              ((if mono (v - totOff) then ConstraintSign.LEQ else ConstraintSign.EQ),
               (ng.getD (v - totOff) (ConstraintSign.STAR, 0)).2) := by
        simp only [nogoodStep]
        rw [if_pos hA]
      rw [hstep,
        ih _ (by rw [List.length_set]; exact hlen)
          (fun w hw => hv w (List.mem_cons_of_mem _ hw)) s hs]
      have hnotinst : ((v == totOff + n + s) : Bool) = false := by
        simp only [beq_eq_false_iff_ne]
        omega
      by_cases hsd : s = v - totOff
      · rw [hsd, getD_set_self ng (v - totOff) (by omega) _ _]
        have htot : ((v == totOff + (v - totOff)) : Bool) = true := by
          simp only [beq_iff_eq]
          omega
        rw [← hsd] at htot ⊢
        rw [memB_cons, memB_cons, hnotinst, htot]
        simp only [Bool.true_or, Bool.false_or]
        rw [resolveTag_of_tagged, resolveTag_tot]
      · rw [getD_set_ne ng (v - totOff) s (fun he => hsd he.symm) _ _]
        have htot : ((v == totOff + s) : Bool) = false := by
          simp only [beq_eq_false_iff_ne]
          omega
        rw [memB_cons, memB_cons, hnotinst, htot]
        simp only [Bool.false_or]
    · -- an instances marker variable: sort d = v - (totOff + n) gets GEQ if still STAR
      have hd : v - (totOff + n) < n := by omega
      have hnottot : ((v == totOff + s) : Bool) = false := by
        simp only [beq_eq_false_iff_ne]
        omega
      by_cases hS : (ng.getD (v - (totOff + n)) (ConstraintSign.STAR, 0)).1 = ConstraintSign.STAR
      · have hstep : nogoodStep totOff (totOff + n) mono ng v
            = ng.set (v - (totOff + n))
                (ConstraintSign.GEQ, (ng.getD (v - (totOff + n)) (ConstraintSign.STAR, 0)).2) := by
          simp only [nogoodStep]
          rw [if_neg hA, if_pos hS]
        rw [hstep,
          ih _ (by rw [List.length_set]; exact hlen)
            (fun w hw => hv w (List.mem_cons_of_mem _ hw)) s hs]
        by_cases hsd : s = v - (totOff + n)
        · rw [hsd, getD_set_self ng (v - (totOff + n)) (by omega) _ _]
          have hinst : ((v == totOff + n + (v - (totOff + n))) : Bool) = true := by
            simp only [beq_iff_eq]
            omega
          rw [← hsd] at hinst ⊢
          rw [memB_cons, memB_cons, hnottot, hinst]
          simp only [Bool.true_or, Bool.false_or]
          rw [← hsd] at hS
          rw [hS, resolveTag_geq, resolveTag_star]
          simp
        · rw [getD_set_ne ng (v - (totOff + n)) s (fun he => hsd he.symm) _ _]
          have hinst : ((v == totOff + n + s) : Bool) = false := by
            simp only [beq_eq_false_iff_ne]
            omega
          rw [memB_cons, memB_cons, hnottot, hinst]
          simp only [Bool.false_or]
      · have hstep : nogoodStep totOff (totOff + n) mono ng v = ng := by
          simp only [nogoodStep]
          rw [if_neg hA, if_neg hS]
        rw [hstep, ih _ hlen (fun w hw => hv w (List.mem_cons_of_mem _ hw)) s hs]
        by_cases hsd : s = v - (totOff + n)
        · have hinst : ((v == totOff + n + s) : Bool) = true := by
            simp only [beq_iff_eq]
            omega
          rw [memB_cons, memB_cons, hnottot, hinst]
          simp only [Bool.true_or, Bool.false_or]
          rw [← hsd] at hS
          rw [resolveTag_inst_irrelevant hS (memB (totOff + s) rest)
            (memB (totOff + n + s) rest) true (mono s)]
        · have hinst : ((v == totOff + n + s) : Bool) = false := by
            simp only [beq_eq_false_iff_ne]
            omega
          rw [memB_cons, memB_cons, hnottot, hinst]
          simp only [Bool.false_or]

theorem nogoodInit_getD : ∀ (dsizes : List Nat) (s : Nat), s < dsizes.length →
    (nogoodInit dsizes).getD s (ConstraintSign.STAR, 0)
      = (ConstraintSign.STAR, dsizes.getD s 0)
  | d :: _, 0, _ => rfl
  | _ :: ds, s + 1, h => by
    simpa [nogoodInit, List.getD_cons_succ] using nogoodInit_getD ds s (by simpa using h)
  | [], s, h => absurd h (by simp)

/-- The matching relation of the claim: a candidate coordinate matches a
constraint entry when `EQ` entries are equal to it, `GEQ` entries at most
it, `LEQ` entries at least it. -/
def ccMatches (v : Nat) (cc : ConstraintSign × Nat) : Prop :=
  (cc.1 = ConstraintSign.EQ → cc.2 = v) ∧
  (cc.1 = ConstraintSign.GEQ → cc.2 ≤ v) ∧
  (cc.1 = ConstraintSign.LEQ → v ≤ cc.2)

theorem ccPass_iff (x : Nat) (cc : ConstraintSign × Nat) :
    ccPass x cc = true ↔ ccMatches x cc := by
  obtain ⟨t, w⟩ := cc
  cases t <;> simp [ccPass, ccMatches]

/-- C4: (a) the no-good built from the failed assumptions tags sort `s`
with `EQ` when its totality marker failed (`LEQ` if `s` is monotonic),
else with `GEQ` when its instances marker failed, all other sorts keeping
`STAR`, each remembering the current size; (b) `checkConstriant` rules a
candidate out exactly when every coordinate matches the constraint in the
claimed sense; (c) a candidate matched by any retained no-good generator
is rejected by the acceptance tests of `increaseModelSizes` — with no SAT
solver involved. -/
theorem c4_nogood_and_rejection (totOff n : Nat) (mono : Nat → Bool) (dsizes : List Nat)
    (hn : dsizes.length = n) (failed : List Nat)
    (hv : ∀ v ∈ failed, totOff ≤ v ∧ v < totOff + n + n) :
    (∀ s, s < n →
      (buildNogood totOff (totOff + n) mono dsizes failed).getD s (ConstraintSign.STAR, 0)
        = ((if memB (totOff + s) failed then
              (if mono s then ConstraintSign.LEQ else ConstraintSign.EQ)
            else if memB (totOff + n + s) failed then ConstraintSign.GEQ
            else ConstraintSign.STAR),
           dsizes.getD s 0)) ∧
    (∀ (v : List Nat) (c : CGVals), checkConstriant v c = true ↔
        ∀ j < v.length, ccMatches (v.getD j 0) (c.getD j (ConstraintSign.STAR, 0))) ∧
    (∀ (maxes : List Nat) (gens olds : List CGVals) (keepOld : Bool)
        (ns st : List (Nat × Nat)) (v : List Nat) (i : Nat) (gnrt : CGVals),
        gnrt ∈ gens → checkConstriant v gnrt = true →
        incrementAccepted maxes gens olds keepOld ns st v i = false) := by
  refine ⟨fun s hs => ?_, fun v c => ?_, ?_⟩
  · rw [buildNogood,
      nogood_fold_char totOff n mono failed (nogoodInit dsizes) (by simp [nogoodInit, hn]) hv s hs,
      nogoodInit_getD dsizes s (by omega)]
    rw [resolveTag_star]
  · unfold checkConstriant
    rw [List.all_eq_true]
    constructor
    · intro h j hj
      exact (ccPass_iff _ _).mp (h j (List.mem_range.mpr hj))
    · intro h j hj
      exact (ccPass_iff _ _).mpr (h j (List.mem_range.mp hj))
  · intro maxes gens olds keepOld ns st v i gnrt hmem hchk
    have hany : gens.any (fun g => checkConstriant v g) = true :=
      List.any_eq_true.mpr ⟨gnrt, hmem, hchk⟩
    simp [incrementAccepted, hany]

/-- Witness for C4 at a concrete failed-assumption set: two distinct
sorts, totality marker of sort 0 failed, instance marker of sort 1
failed, sort 0 non-monotonic. -/
theorem c4_nogood_and_rejection_witness :
    (buildNogood 10 12 (fun _ => false) [3, 4] [10, 13]).getD 0 (ConstraintSign.STAR, 0)
      = (ConstraintSign.EQ, 3) ∧
    checkConstriant [3, 5] [(ConstraintSign.EQ, 3), (ConstraintSign.GEQ, 4)] = true ∧
    incrementAccepted [9, 9] [[(ConstraintSign.EQ, 3), (ConstraintSign.GEQ, 4)]] [] false [] []
      [3, 5] 1 = false := by
  have h := c4_nogood_and_rejection 10 2 (fun _ => false) [3, 4] rfl [10, 13]
    (by intro w hw; fin_cases hw <;> omega)
  refine ⟨?_, by decide, ?_⟩
  · have h0 := h.1 0 (by omega)
    simpa [memB] using h0
  · exact h.2.2 [9, 9] [[(ConstraintSign.EQ, 3), (ConstraintSign.GEQ, 4)]] [] false [] []
      [3, 5] 1 _ (List.mem_singleton.mpr rfl) (by decide)

/-! ## C6: the marker index of CONTOUR totality clauses -/

/-- A builder whose single constant has its result sort bounded (sortBound
= 1) below the current size (2) of its distinct sort: `maxRet = 1 < 2 =
size[s]`. -/
def cfgBound : Builder :=
  ⟨1, fun _ => false, fun _ => [0], fun _ => [], fun _ => 2, fun _ => 1, fun _ => 0,
   fun _ => false, [2], true, fun _ => 1, fun _ => 1, fun _ => 10, 0, 0⟩

/-- C6 counterexample: at `cfgBound` the single totality clause (candidate
result cardinality `i = maxRet = 1`, distinct sort size 2, marker block at
offset 10) carries the marker variable `10 + (2 − 1) = 11`, not
`10 + min(i−1, size−1) = 10` as the claim states. -/
theorem c6_counterexample :
    totalityClauses cfgBound 0 = [[⟨1, true⟩, ⟨11, true⟩]] ∧
    (11 : Nat) ≠ 10 + min (1 - 1) (2 - 1) := by
  decide

/-- C6 amended: in CONTOUR mode every emitted totality clause ends in a
positive marker literal of the distinct result sort whose index is
`min(i−1, size[s]−1) = i−1` for a non-top cardinality `i < maxRet(s)` but
`size[s]−1` — the largest marker — for the top cardinality `i = maxRet(s)`,
even when `maxRet(s) − 1` is smaller. -/
theorem c6_amended (b : Builder) (f : Nat) (hx : b.xmass = true)
    (hsz : maxRetSize b f ≤ dSize b (retDSort b f)) :
    ∀ cl ∈ totalityClauses b f, ∃ i ∈ totVersions b f,
      cl.getLast? = some (totMarkerLit b f i) ∧
      (totMarkerLit b f i).pos = true ∧
      (totMarkerLit b f i).var
        = b.marker_offsets (retDSort b f)
          + (if i = maxRetSize b f then dSize b (retDSort b f) - 1
             else min (i - 1) (dSize b (retDSort b f) - 1)) := by
  intro cl hcl
  rw [totalityClauses, List.mem_flatMap] at hcl
  obtain ⟨xs, _, hcl⟩ := hcl
  rw [List.mem_map] at hcl
  obtain ⟨i, hi, rfl⟩ := hcl
  refine ⟨i, hi, List.getLast?_concat _, by simp [totMarkerLit, hx], ?_⟩
  have hile : i ≤ maxRetSize b f := by
    rw [totVersions] at hi
    by_cases hmono : (b.xmass && !b.monotonicSorts (retDSort b f)) = true
    · rw [if_pos hmono] at hi
      rw [List.mem_map] at hi
      obtain ⟨j, hj, rfl⟩ := hi
      rw [List.mem_range] at hj
      omega
    · rw [if_neg hmono, List.mem_singleton] at hi
      omega
  rw [totMarkerLit, if_pos hx]
  by_cases htop : i = maxRetSize b f
  · rw [if_pos htop, if_pos htop]
  · rw [if_neg htop, if_neg htop]
    show b.marker_offsets (retDSort b f) + (i - 1) = _
    have hmin : min (i - 1) (dSize b (retDSort b f) - 1) = i - 1 := by omega
    rw [hmin]

/-! ## Unfolding lemmas for the layout walks -/

theorem symWalk_cons_deleted {vmax : Nat} {sizes : Nat → Nat} {isFun : Bool} {sym : FSym}
    (hdel : sym.deleted = true) (rest : List FSym) (off : Nat) :
    symWalk vmax sizes isFun (sym :: rest) off
      = Option.map (fun p => (none :: p.1, p.2)) (symWalk vmax sizes isFun rest off) := by
  rcases h : symWalk vmax sizes isFun rest off with _ | ⟨os, fin⟩ <;> simp [symWalk, hdel, h]

theorem symWalk_cons_blockfail {vmax : Nat} {sizes : Nat → Nat} {isFun : Bool} {sym : FSym}
    (hdel : sym.deleted = false) (hblk : symBlock sizes isFun sym.sig = none)
    (rest : List FSym) (off : Nat) :
    symWalk vmax sizes isFun (sym :: rest) off = none := by
  simp [symWalk, hdel, hblk]

theorem symWalk_cons_capfail {vmax : Nat} {sizes : Nat → Nat} {isFun : Bool} {sym : FSym}
    {add : Nat} (hdel : sym.deleted = false) (hblk : symBlock sizes isFun sym.sig = some add)
    {off : Nat} (hcap : sub32 vmax add < off) (rest : List FSym) :
    symWalk vmax sizes isFun (sym :: rest) off = none := by
  simp [symWalk, hdel, hblk, hcap]

theorem symWalk_cons_live {vmax : Nat} {sizes : Nat → Nat} {isFun : Bool} {sym : FSym}
    {add : Nat} (hdel : sym.deleted = false) (hblk : symBlock sizes isFun sym.sig = some add)
    {off : Nat} (hcap : ¬ sub32 vmax add < off) (rest : List FSym) :
    symWalk vmax sizes isFun (sym :: rest) off
      = Option.map (fun p => (some off :: p.1, p.2))
          (symWalk vmax sizes isFun rest (add32 off add)) := by
  rcases h : symWalk vmax sizes isFun rest (add32 off add) with _ | ⟨os, fin⟩ <;>
    simp [symWalk, hdel, hblk, hcap, h]

theorem markerWalk_cons_capfail {vmax d : Nat} {off : Nat} (hcap : sub32 vmax d < off)
    (rest : List Nat) :
    markerWalk vmax (d :: rest) off = none := by
  simp [markerWalk, hcap]

theorem markerWalk_cons_live {vmax d : Nat} {off : Nat} (hcap : ¬ sub32 vmax d < off)
    (rest : List Nat) :
    markerWalk vmax (d :: rest) off
      = Option.map (fun p => (off :: p.1, p.2)) (markerWalk vmax rest (add32 off d)) := by
  rcases h : markerWalk vmax rest (add32 off d) with _ | ⟨ms, fin⟩ <;> simp [markerWalk, hcap, h]

/-! ## C5: the failure conditions of reset -/

/-- The block-product scan hit an overflow: some prefix of the slot list
accumulated to `a2` and the next multiplication wrapped (`n_add < add`). -/
def blockOverflowAt (sizes : Nat → Nat) (add : Nat) (sig : List Nat) : Prop :=
  ∃ pre s post a2, sig = pre ++ s :: post ∧
    blockLoop sizes add pre = some a2 ∧ mul32 a2 (sizes s) < a2

/-- The symbol walk failed: after laying out some prefix (reaching running
offset `off2`), the next non-deleted symbol either hits a block-size
multiplication overflow or fails the capacity check
`VAR_MAX − add < offsets`. -/
def walkFailureAt (vmax : Nat) (sizes : Nat → Nat) (isFun : Bool)
    (syms : List FSym) (off : Nat) : Prop :=
  ∃ pre sym post os off2, syms = pre ++ sym :: post ∧
    symWalk vmax sizes isFun pre off = some (os, off2) ∧ sym.deleted = false ∧
    (symBlock sizes isFun sym.sig = none ∨
      ∃ add, symBlock sizes isFun sym.sig = some add ∧ sub32 vmax add < off2)

/-- The CONTOUR marker walk failed the capacity check at some sort. -/
def markerFailureAt (vmax : Nat) (ds : List Nat) (off : Nat) : Prop :=
  ∃ pre d post ms off2, ds = pre ++ d :: post ∧
    markerWalk vmax pre off = some (ms, off2) ∧ sub32 vmax d < off2

/-- The marker region fails: per-sort blocks in CONTOUR mode, the two
capacity checks for the totality and instance marker blocks otherwise. -/
def markerFailure (vmax : Nat) (dsizes : List Nat) (xmass : Bool) (off2 : Nat) : Prop :=
  if xmass then markerFailureAt vmax dsizes off2
  else sub32 vmax dsizes.length < off2 ∨ sub32 vmax dsizes.length < add32 off2 dsizes.length

/-- Some stage of reset fails: the function walk from offset 1, the
predicate walk from the function region's end, or the marker region. -/
def resetFailure (vmax : Nat) (sizes : Nat → Nat) (funs preds : List FSym)
    (dsizes : List Nat) (xmass : Bool) : Prop :=
  walkFailureAt vmax sizes true funs 1 ∨
  (∃ fo off1, symWalk vmax sizes true funs 1 = some (fo, off1) ∧
    (walkFailureAt vmax sizes false preds off1 ∨
      (∃ po off2, symWalk vmax sizes false preds off1 = some (po, off2) ∧
        markerFailure vmax dsizes xmass off2)))

theorem blockLoop_none_iff (sizes : Nat → Nat) :
    ∀ (sig : List Nat) (add : Nat),
      blockLoop sizes add sig = none ↔ blockOverflowAt sizes add sig := by
  intro sig
  induction sig with
  | nil =>
    intro add
    constructor
    · intro h
      exact absurd h (by simp [blockLoop])
    · rintro ⟨pre, s, post, a2, hshape, -, -⟩
      exact absurd hshape (by simp)
  | cons s rest ih =>
    intro add
    by_cases hov : mul32 add (sizes s) < add
    · constructor
      · intro _
        exact ⟨[], s, rest, add, rfl, rfl, hov⟩
      · intro _
        simp [blockLoop, hov]
    · have hunf : blockLoop sizes add (s :: rest) = blockLoop sizes (mul32 add (sizes s)) rest := by
        simp [blockLoop, hov]
      rw [hunf, ih (mul32 add (sizes s))]
      constructor
      · rintro ⟨pre, s2, post, a2, hshape, hpre, hcond⟩
        refine ⟨s :: pre, s2, post, a2, by rw [hshape]; rfl, ?_, hcond⟩
        simpa [blockLoop, hov] using hpre
      · rintro ⟨pre, s2, post, a2, hshape, hpre, hcond⟩
        cases pre with
        | nil =>
          obtain ⟨rfl, rfl⟩ : s2 = s ∧ post = rest := by
            injection hshape with h1 h2
            exact ⟨h1.symm, h2.symm⟩
          simp only [blockLoop] at hpre
          obtain rfl : add = a2 := by injection hpre
          exact absurd hcond hov
        | cons p pre2 =>
          obtain ⟨rfl, hrest⟩ : p = s ∧ rest = pre2 ++ s2 :: post := by
            injection hshape with h1 h2
            exact ⟨h1.symm, h2⟩
          refine ⟨pre2, s2, post, a2, hrest, ?_, hcond⟩
          simpa [blockLoop, hov] using hpre

theorem symWalk_none_iff (vmax : Nat) (sizes : Nat → Nat) (isFun : Bool) :
    ∀ (syms : List FSym) (off : Nat),
      symWalk vmax sizes isFun syms off = none ↔ walkFailureAt vmax sizes isFun syms off := by
  intro syms
  induction syms with
  | nil =>
    intro off
    constructor
    · intro h
      exact absurd h (by simp [symWalk])
    · rintro ⟨pre, sym, post, os, off2, hshape, -, -, -⟩
      exact absurd hshape (by simp)
  | cons sym rest ih =>
    intro off
    by_cases hdel : sym.deleted
    · rw [symWalk_cons_deleted hdel rest off, Option.map_eq_none', ih off]
      constructor
      · rintro ⟨pre, s2, post, os, off2, hshape, hpre, hlive, hcond⟩
        refine ⟨sym :: pre, s2, post, none :: os, off2, by rw [hshape]; rfl, ?_, hlive, hcond⟩
        rw [symWalk_cons_deleted hdel pre off, hpre]
        rfl
      · rintro ⟨pre, s2, post, os, off2, hshape, hpre, hlive, hcond⟩
        cases pre with
        | nil =>
          obtain ⟨rfl, -⟩ : s2 = sym ∧ post = rest := by
            injection hshape with h1 h2
            exact ⟨h1.symm, h2.symm⟩
          rw [hlive] at hdel
          exact absurd hdel (by simp)
        | cons p pre2 =>
          obtain ⟨rfl, hrest⟩ : p = sym ∧ rest = pre2 ++ s2 :: post := by
            injection hshape with h1 h2
            exact ⟨h1.symm, h2⟩
          rw [symWalk_cons_deleted hdel pre2 off, Option.map_eq_some'] at hpre
          obtain ⟨⟨os2, off3⟩, hpre2, heq⟩ := hpre
          obtain ⟨h1, h2⟩ : none :: os2 = os ∧ off3 = off2 := by
            injection heq with ha hb
            exact ⟨ha, hb⟩
          rw [h2] at hpre2
          exact ⟨pre2, s2, post, os2, off2, hrest, hpre2, hlive, hcond⟩
    · replace hdel : sym.deleted = false := by simpa using hdel
      rcases hblk : symBlock sizes isFun sym.sig with _ | add
      · constructor
        · intro _
          exact ⟨[], sym, rest, [], off, rfl, rfl, hdel, Or.inl hblk⟩
        · intro _
          exact symWalk_cons_blockfail hdel hblk rest off
      · by_cases hcap : sub32 vmax add < off
        · constructor
          · intro _
            exact ⟨[], sym, rest, [], off, rfl, rfl, hdel, Or.inr ⟨add, hblk, hcap⟩⟩
          · intro _
            exact symWalk_cons_capfail hdel hblk hcap rest
        · rw [symWalk_cons_live hdel hblk hcap rest, Option.map_eq_none',
            ih (add32 off add)]
          constructor
          · rintro ⟨pre, s2, post, os, off2, hshape, hpre, hlive, hcond⟩
            refine ⟨sym :: pre, s2, post, some off :: os, off2, by rw [hshape]; rfl, ?_, hlive, hcond⟩
            rw [symWalk_cons_live hdel hblk hcap pre, hpre]
            rfl
          · rintro ⟨pre, s2, post, os, off2, hshape, hpre, hlive, hcond⟩
            cases pre with
            | nil =>
              obtain ⟨rfl, -⟩ : s2 = sym ∧ post = rest := by
                injection hshape with h1 h2
                exact ⟨h1.symm, h2.symm⟩
              simp only [symWalk] at hpre
              obtain ⟨-, rfl⟩ : ([] : List (Option Nat)) = os ∧ off = off2 := by
                injection hpre with h
                injection h with h1 h2
                exact ⟨h1, h2⟩
              rcases hcond with hc | ⟨add2, hblk2, hcap2⟩
              · rw [hblk] at hc
                exact absurd hc (by simp)
              · rw [hblk] at hblk2
                obtain rfl : add = add2 := by injection hblk2
                exact absurd hcap2 hcap
            | cons p pre2 =>
              obtain ⟨rfl, hrest⟩ : p = sym ∧ rest = pre2 ++ s2 :: post := by
                injection hshape with h1 h2
                exact ⟨h1.symm, h2⟩
              rw [symWalk_cons_live hdel hblk hcap pre2, Option.map_eq_some'] at hpre
              obtain ⟨⟨os2, off3⟩, hpre2, heq⟩ := hpre
              obtain ⟨h1, h2⟩ : some off :: os2 = os ∧ off3 = off2 := by
                injection heq with ha hb
                exact ⟨ha, hb⟩
              rw [h2] at hpre2
              exact ⟨pre2, s2, post, os2, off2, hrest, hpre2, hlive, hcond⟩

theorem markerWalk_none_iff (vmax : Nat) :
    ∀ (ds : List Nat) (off : Nat),
      markerWalk vmax ds off = none ↔ markerFailureAt vmax ds off := by
  intro ds
  induction ds with
  | nil =>
    intro off
    constructor
    · intro h
      exact absurd h (by simp [markerWalk])
    · rintro ⟨pre, d, post, ms, off2, hshape, -, -⟩
      exact absurd hshape (by simp)
  | cons d rest ih =>
    intro off
    by_cases hcap : sub32 vmax d < off
    · constructor
      · intro _
        exact ⟨[], d, rest, [], off, rfl, rfl, hcap⟩
      · intro _
        exact markerWalk_cons_capfail hcap rest
    · rw [markerWalk_cons_live hcap rest, Option.map_eq_none', ih (add32 off d)]
      constructor
      · rintro ⟨pre, d2, post, ms, off2, hshape, hpre, hcond⟩
        refine ⟨d :: pre, d2, post, off :: ms, off2, by rw [hshape]; rfl, ?_, hcond⟩
        rw [markerWalk_cons_live hcap pre, hpre]
        rfl
      · rintro ⟨pre, d2, post, ms, off2, hshape, hpre, hcond⟩
        cases pre with
        | nil =>
          obtain ⟨rfl, -⟩ : d2 = d ∧ post = rest := by
            injection hshape with h1 h2
            exact ⟨h1.symm, h2.symm⟩
          simp only [markerWalk] at hpre
          obtain ⟨-, rfl⟩ : ([] : List Nat) = ms ∧ off = off2 := by
            injection hpre with h
            injection h with h1 h2
            exact ⟨h1, h2⟩
          exact absurd hcond hcap
        | cons p pre2 =>
          obtain ⟨rfl, hrest⟩ : p = d ∧ rest = pre2 ++ d2 :: post := by
            injection hshape with h1 h2
            exact ⟨h1.symm, h2⟩
          rw [markerWalk_cons_live hcap pre2, Option.map_eq_some'] at hpre
          obtain ⟨⟨ms2, off3⟩, hpre2, heq⟩ := hpre
          obtain ⟨h1, h2⟩ : off :: ms2 = ms ∧ off3 = off2 := by
            injection heq with ha hb
            exact ⟨ha, hb⟩
          rw [h2] at hpre2
          exact ⟨pre2, d2, post, ms2, off2, hrest, hpre2, hcond⟩

/-- C5: `reset` returns *cannot encode* exactly when, while walking the
non-deleted functions (from offset 1) then the predicates and
accumulating block sizes, a block-size multiplication overflows
(`n_add < add`, characterized by `blockOverflowAt`) or the running offset
fails the capacity check `VAR_MAX − add < offsets`, including for the
marker region; and the cannot-encode outcome is exactly the one that does
not allocate the SAT solver. -/
theorem c5_reset_overflow (vmax : Nat) (sizes : Nat → Nat) (funs preds : List FSym)
    (dsizes : List Nat) (xmass : Bool) :
    (reset vmax sizes funs preds dsizes xmass = ResetResult.cannotEncode
      ↔ resetFailure vmax sizes funs preds dsizes xmass) ∧
    (∀ (sig : List Nat) (add : Nat),
      blockLoop sizes add sig = none ↔ blockOverflowAt sizes add sig) ∧
    (solverAllocated (reset vmax sizes funs preds dsizes xmass) = false
      ↔ reset vmax sizes funs preds dsizes xmass = ResetResult.cannotEncode) := by
  refine ⟨?_, blockLoop_none_iff sizes, ?_⟩
  · rcases hf : symWalk vmax sizes true funs 1 with _ | ⟨fo, off1⟩
    · have hres : reset vmax sizes funs preds dsizes xmass = ResetResult.cannotEncode := by
        simp [reset, hf]
      exact iff_of_true hres (Or.inl ((symWalk_none_iff vmax sizes true funs 1).mp hf))
    · have hfail1 : ¬ walkFailureAt vmax sizes true funs 1 := by
        rw [← symWalk_none_iff vmax sizes true funs 1, hf]
        simp
      rcases hp : symWalk vmax sizes false preds off1 with _ | ⟨po, off2⟩
      · have hres : reset vmax sizes funs preds dsizes xmass = ResetResult.cannotEncode := by
          simp [reset, hf, hp]
        exact iff_of_true hres
          (Or.inr ⟨fo, off1, hf, Or.inl ((symWalk_none_iff vmax sizes false preds off1).mp hp)⟩)
      · have hfail2 : ¬ walkFailureAt vmax sizes false preds off1 := by
          rw [← symWalk_none_iff vmax sizes false preds off1, hp]
          simp
        have hRiff : resetFailure vmax sizes funs preds dsizes xmass
            ↔ markerFailure vmax dsizes xmass off2 := by
          unfold resetFailure
          constructor
          · rintro (h | ⟨fo2, off1b, hfo, h⟩)
            · exact absurd h hfail1
            · rw [hf, Option.some.injEq, Prod.mk.injEq] at hfo
              obtain ⟨rfl, rfl⟩ := hfo
              rcases h with h | ⟨po2, off2b, hpo, h⟩
              · exact absurd h hfail2
              · rw [hp, Option.some.injEq, Prod.mk.injEq] at hpo
                obtain ⟨rfl, rfl⟩ := hpo
                exact h
          · intro h
            exact Or.inr ⟨fo, off1, hf, Or.inr ⟨po, off2, hp, h⟩⟩
        rw [hRiff]
        by_cases hx : xmass
        · subst hx
          rcases hm : markerWalk vmax dsizes off2 with _ | ⟨ms, fin⟩
          · have hres : reset vmax sizes funs preds dsizes true = ResetResult.cannotEncode := by
              simp [reset, hf, hp, hm]
            exact iff_of_true hres ((markerWalk_none_iff vmax dsizes off2).mp hm)
          · have hres : reset vmax sizes funs preds dsizes true
                = ResetResult.ready ⟨fo, po, ms, 0, 0, fin - 1⟩ := by
              simp [reset, hf, hp, hm]
            refine iff_of_false (by rw [hres]; simp) ?_
            rw [show markerFailure vmax dsizes true off2
                = markerFailureAt vmax dsizes off2 from rfl,
              ← markerWalk_none_iff vmax dsizes off2, hm]
            simp
        · replace hx : xmass = false := by simpa using hx
          subst hx
          rw [show markerFailure vmax dsizes false off2
            = (sub32 vmax dsizes.length < off2 ∨
               sub32 vmax dsizes.length < add32 off2 dsizes.length) from rfl]
          by_cases h1 : sub32 vmax dsizes.length < off2
          · have hres : reset vmax sizes funs preds dsizes false = ResetResult.cannotEncode := by
              simp [reset, hf, hp, h1]
            exact iff_of_true hres (Or.inl h1)
          · by_cases h2 : sub32 vmax dsizes.length < add32 off2 dsizes.length
            · have hres : reset vmax sizes funs preds dsizes false
                  = ResetResult.cannotEncode := by
                simp [reset, hf, hp, h1, h2]
              exact iff_of_true hres (Or.inr h2)
            · have hres : reset vmax sizes funs preds dsizes false
                  = ResetResult.ready
                      ⟨fo, po, [], off2, add32 off2 dsizes.length,
                       add32 (add32 off2 dsizes.length) dsizes.length - 1⟩ := by
                simp [reset, hf, hp, h1, h2]
              exact iff_of_false (by rw [hres]; simp) (by simp [h1, h2])
  · rcases h : reset vmax sizes funs preds dsizes xmass with _ | L <;> simp [solverAllocated, h]

/-- Witness for C5: there is no Prop hypothesis to discharge, but the
biconditionals are exercised at a concrete failing input — two constants
of a sort of size 6 against `VAR_MAX = 10`: the second capacity check
fires and reset cannot encode. -/
theorem c5_reset_overflow_witness :
    reset 10 (fun _ => 6) [⟨false, [0]⟩, ⟨false, [0]⟩] [] [1] true
      = ResetResult.cannotEncode ∧
    solverAllocated (reset 10 (fun _ => 6) [⟨false, [0]⟩, ⟨false, [0]⟩] [] [1] true) = false ∧
    resetFailure 10 (fun _ => 6) [⟨false, [0]⟩, ⟨false, [0]⟩] [] [1] true := by
  refine ⟨by decide, by decide, ?_⟩
  exact ((c5_reset_overflow 10 (fun _ => 6) [⟨false, [0]⟩, ⟨false, [0]⟩] [] [1] true).1).mp
    (by decide)

/-! ## Arithmetic of the mixed-radix numbering -/

theorem one_le_listProd {l : List Nat} (h : ∀ x ∈ l, 1 ≤ x) : 1 ≤ l.prod := by
  induction l with
  | nil => simp
  | cons x xs ih =>
    rw [List.prod_cons]
    have hx := h x (List.mem_cons_self x xs)
    have hxs := ih (fun y hy => h y (List.mem_cons_of_mem x hy))
    exact Nat.one_le_iff_ne_zero.mpr (Nat.mul_ne_zero (by omega) (by omega))

theorem inRange_cons_iff {g r : Nat} {gs rs : List Nat} :
    inRange (g :: gs) (r :: rs) = true ↔ 1 ≤ g ∧ g ≤ r ∧ inRange gs rs = true := by
  simp [inRange, and_assoc]

theorem inRange_nil_right {g : List Nat} : inRange g [] = true ↔ g = [] := by
  cases g <;> simp [inRange]

theorem inRange_nil_left {rs : List Nat} : inRange [] rs = true ↔ rs = [] := by
  cases rs <;> simp [inRange]

theorem inRange_radix_ge_one : ∀ {g rs : List Nat}, inRange g rs = true →
    ∀ r ∈ rs, 1 ≤ r := by
  intro g rs
  induction rs generalizing g with
  | nil => simp
  | cons r rest ih =>
    intro h x hx
    cases g with
    | nil => exact absurd h (by simp [inRange])
    | cons g0 gs =>
      rw [inRange_cons_iff] at h
      rcases List.mem_cons.mp hx with rfl | hx2
      · omega
      · exact ih h.2.2 x hx2

theorem mixedRadix_lt : ∀ {g rs : List Nat}, inRange g rs = true →
    mixedRadix g rs < rs.prod := by
  intro g rs
  induction rs generalizing g with
  | nil =>
    intro h
    rw [inRange_nil_right.mp h]
    simp [mixedRadix]
  | cons r rest ih =>
    intro h
    cases g with
    | nil => exact absurd h (by simp [inRange])
    | cons g0 gs =>
      rw [inRange_cons_iff] at h
      obtain ⟨h1, h2, h3⟩ := h
      have hX := ih h3
      have hmul : r * (mixedRadix gs rest + 1) ≤ r * rest.prod :=
        Nat.mul_le_mul_left r (by omega)
      rw [Nat.mul_succ] at hmul
      rw [List.prod_cons, mixedRadix]
      omega

theorem mixedRadix_inj : ∀ {g g2 rs : List Nat}, inRange g rs = true →
    inRange g2 rs = true → mixedRadix g rs = mixedRadix g2 rs → g = g2 := by
  intro g g2 rs
  induction rs generalizing g g2 with
  | nil =>
    intro h h2 _
    rw [inRange_nil_right.mp h, inRange_nil_right.mp h2]
  | cons r rest ih =>
    intro h h2 heq
    cases g with
    | nil => exact absurd h (by simp [inRange])
    | cons a gs =>
      cases g2 with
      | nil => exact absurd h2 (by simp [inRange])
      | cons bb gs2 =>
        rw [inRange_cons_iff] at h h2
        obtain ⟨ha1, ha2, ha3⟩ := h
        obtain ⟨hb1, hb2, hb3⟩ := h2
        rw [mixedRadix, mixedRadix] at heq
        have hX : mixedRadix gs rest = mixedRadix gs2 rest := by
          rcases Nat.lt_trichotomy (mixedRadix gs rest) (mixedRadix gs2 rest) with hlt | he | hgt
          · have := Nat.mul_le_mul_left r (show mixedRadix gs rest + 1 ≤ mixedRadix gs2 rest by omega)
            rw [Nat.mul_succ] at this
            omega
          · exact he
          · have := Nat.mul_le_mul_left r (show mixedRadix gs2 rest + 1 ≤ mixedRadix gs rest by omega)
            rw [Nat.mul_succ] at this
            omega
        have hab : a = bb := by
          rw [hX] at heq
          omega
        rw [hab, ih ha3 hb3 hX]

theorem mixedRadix_surj : ∀ (rs : List Nat) (v : Nat), v < rs.prod →
    ∃ g, inRange g rs = true ∧ mixedRadix g rs = v := by
  intro rs
  induction rs with
  | nil =>
    intro v hv
    rw [List.prod_nil] at hv
    refine ⟨[], by simp [inRange], ?_⟩
    show 0 = v
    omega
  | cons r rest ih =>
    intro v hv
    rw [List.prod_cons] at hv
    have hr : 0 < r := by
      rcases Nat.eq_zero_or_pos r with h0 | h
      · rw [h0, Nat.zero_mul] at hv
        omega
      · exact h
    have hq : v / r < rest.prod := by
      rw [Nat.div_lt_iff_lt_mul hr]
      calc v < r * rest.prod := hv
        _ = rest.prod * r := Nat.mul_comm r rest.prod
    obtain ⟨gs, hgs, hmix⟩ := ih (v / r) hq
    refine ⟨(v % r + 1) :: gs, ?_, ?_⟩
    · rw [inRange_cons_iff]
      have := Nat.mod_lt v hr
      exact ⟨by omega, by omega, hgs⟩
    · rw [mixedRadix, hmix]
      have := Nat.mod_add_div v r
      omega

/-! ## Exact evaluation of the walks when the layout fits -/

theorem sub32_eq {a b : Nat} (hb : b ≤ a) (ha : a < U32) : sub32 a b = a - b := by
  rw [sub32, Nat.add_sub_assoc hb, Nat.add_mod_left, Nat.mod_eq_of_lt (by omega)]

theorem add32_eq {a b : Nat} (h : a + b < U32) : add32 a b = a + b :=
  Nat.mod_eq_of_lt h

theorem mul32_eq {a b : Nat} (h : a * b < U32) : mul32 a b = a * b :=
  Nat.mod_eq_of_lt h

theorem blockLoop_eq (sizes : Nat → Nat) (hsz : ∀ s, 1 ≤ sizes s) :
    ∀ (sig : List Nat) (add : Nat), 1 ≤ add → add * (sig.map sizes).prod < U32 →
      blockLoop sizes add sig = some (add * (sig.map sizes).prod) := by
  intro sig
  induction sig with
  | nil =>
    intro add _ _
    simp [blockLoop]
  | cons s rest ih =>
    intro add hadd hbound
    rw [List.map_cons, List.prod_cons, ← Nat.mul_assoc] at hbound
    have hrest : 1 ≤ (rest.map sizes).prod :=
      one_le_listProd (by
        intro x hx
        obtain ⟨y, -, rfl⟩ := List.mem_map.mp hx
        exact hsz y)
    have hmul : add * sizes s < U32 := by
      calc add * sizes s = add * sizes s * 1 := (Nat.mul_one _).symm
        _ ≤ add * sizes s * (rest.map sizes).prod := Nat.mul_le_mul_left _ hrest
        _ < U32 := hbound
    have hge : ¬ mul32 add (sizes s) < add := by
      rw [mul32_eq hmul]
      have : add * 1 ≤ add * sizes s := Nat.mul_le_mul_left add (hsz s)
      omega
    have hone : 1 ≤ add * sizes s := by
      have h1 := hsz s
      exact Nat.one_le_iff_ne_zero.mpr (Nat.mul_ne_zero (by omega) (by omega))
    rw [blockLoop, if_neg hge, mul32_eq hmul, ih (add * sizes s) hone hbound,
      List.map_cons, List.prod_cons, ← Nat.mul_assoc]

theorem symBlock_eq (sizes : Nat → Nat) (hsz : ∀ s, 1 ≤ sizes s) (isFun : Bool)
    (sig : List Nat) (h : (sig.map sizes).prod < U32) :
    symBlock sizes isFun sig = some ((sig.map sizes).prod) := by
  cases isFun with
  | false =>
    show blockLoop sizes 1 sig = _
    simpa using blockLoop_eq sizes hsz sig 1 (by omega) (by simpa using h)
  | true =>
    cases sig with
    | nil => simp [symBlock]
    | cons s rest =>
      show blockLoop sizes (sizes s) rest = _
      rw [List.map_cons, List.prod_cons] at h ⊢
      exact blockLoop_eq sizes hsz rest (sizes s) (hsz s) h

theorem blocksOf_cons_deleted {sym : FSym} (h : sym.deleted = true)
    (sizes : Nat → Nat) (rest : List FSym) :
    blocksOf sizes (sym :: rest) = blocksOf sizes rest := by
  simp [blocksOf, liveSyms, h]

theorem blocksOf_cons_live {sym : FSym} (h : sym.deleted = false)
    (sizes : Nat → Nat) (rest : List FSym) :
    blocksOf sizes (sym :: rest) = radicesOf sizes sym :: blocksOf sizes rest := by
  simp [blocksOf, liveSyms, h]

theorem offListOf_cons_deleted {sym : FSym} (h : sym.deleted = true)
    (sizes : Nat → Nat) (off : Nat) (rest : List FSym) :
    offListOf sizes off (sym :: rest) = none :: offListOf sizes off rest := by
  simp [offListOf, h]

theorem offListOf_cons_live {sym : FSym} (h : sym.deleted = false)
    (sizes : Nat → Nat) (off : Nat) (rest : List FSym) :
    offListOf sizes off (sym :: rest)
      = some off :: offListOf sizes (off + (radicesOf sizes sym).prod) rest := by
  simp [offListOf, h]

theorem layoutEnd_nil (start : Nat) : layoutEnd start [] = start := by
  simp [layoutEnd, blocksSum]

theorem layoutEnd_cons (start : Nat) (rs : List Nat) (rest : List (List Nat)) :
    layoutEnd start (rs :: rest) = layoutEnd (start + rs.prod) rest := by
  simp [layoutEnd, blocksSum]
  omega

theorem symWalk_eq (vmax : Nat) (sizes : Nat → Nat) (isFun : Bool)
    (hvm : vmax < U32) (hsz : ∀ s, 1 ≤ sizes s) :
    ∀ (syms : List FSym) (off : Nat), 1 ≤ off →
      layoutEnd off (blocksOf sizes syms) ≤ vmax →
      symWalk vmax sizes isFun syms off
        = some (offListOf sizes off syms, layoutEnd off (blocksOf sizes syms)) := by
  intro syms
  induction syms with
  | nil =>
    intro off _ _
    rw [show blocksOf sizes [] = [] from rfl, layoutEnd_nil]
    rfl
  | cons sym rest ih =>
    intro off hoff hfit
    by_cases hdel : sym.deleted
    · rw [blocksOf_cons_deleted hdel sizes rest] at hfit ⊢
      rw [symWalk_cons_deleted hdel rest off, ih off hoff hfit,
        offListOf_cons_deleted hdel sizes off rest]
      rfl
    · replace hdel : sym.deleted = false := by simpa using hdel
      rw [blocksOf_cons_live hdel sizes rest] at hfit ⊢
      rw [layoutEnd_cons] at hfit
      have hoffend : off + (radicesOf sizes sym).prod ≤ vmax := by
        have h1 : off + (radicesOf sizes sym).prod
            ≤ layoutEnd (off + (radicesOf sizes sym).prod) (blocksOf sizes rest) := by
          rw [layoutEnd]
          omega
        omega
      have hradeq : sym.sig.map sizes = radicesOf sizes sym := rfl
      have hprod : (sym.sig.map sizes).prod < U32 := by
        rw [hradeq]
        omega
      have hblk := symBlock_eq sizes hsz isFun sym.sig hprod
      have hcap : ¬ sub32 vmax ((sym.sig.map sizes).prod) < off := by
        rw [sub32_eq (by rw [hradeq]; omega) hvm, hradeq]
        omega
      rw [symWalk_cons_live hdel hblk hcap rest, hradeq,
        add32_eq (by omega),
        ih (off + (radicesOf sizes sym).prod) (by omega) hfit,
        offListOf_cons_live hdel sizes off rest, layoutEnd_cons]
      rfl

theorem markerWalk_eq (vmax : Nat) (hvm : vmax < U32) :
    ∀ (ds : List Nat) (off : Nat), 1 ≤ off → off + ds.sum ≤ vmax →
      markerWalk vmax ds off = some (markerOffList off ds, off + ds.sum) := by
  intro ds
  induction ds with
  | nil =>
    intro off _ _
    rw [show markerOffList off [] = [] from rfl]
    simp [markerWalk]
  | cons d rest ih =>
    intro off hoff hfit
    rw [List.sum_cons] at hfit
    have hcap : ¬ sub32 vmax d < off := by
      rw [sub32_eq (by omega) hvm]
      omega
    rw [markerWalk_cons_live hcap rest, add32_eq (by omega),
      ih (off + d) (by omega) (by omega),
      show markerOffList off (d :: rest) = off :: markerOffList (off + d) rest from rfl,
      List.sum_cons, show off + d + rest.sum = off + (d + rest.sum) by omega]
    rfl

/-! ## The U32 accumulation of getSATLiteral agrees with the exact value -/

theorem varIdLoop_ones : ∀ (rs gs : List Nat), inRange gs rs = true → rs.prod = 1 →
    mixedRadix gs rs = 0 ∧ ∀ var mult, var < U32 → varIdLoop var mult rs gs = var := by
  intro rs
  induction rs with
  | nil =>
    intro gs hg _
    rw [inRange_nil_right.mp hg]
    exact ⟨rfl, fun var mult _ => rfl⟩
  | cons r rest ih =>
    intro gs hg hprod
    cases gs with
    | nil => exact absurd hg (by simp [inRange])
    | cons g gs2 =>
      rw [inRange_cons_iff] at hg
      obtain ⟨hg1, hg2, hg3⟩ := hg
      rw [List.prod_cons] at hprod
      have hr1 : r = 1 := by
        rcases Nat.eq_zero_or_pos rest.prod with h0 | hp
        · rw [h0, Nat.mul_zero] at hprod
          omega
        · nlinarith
      have hp1 : rest.prod = 1 := by
        rw [hr1, Nat.one_mul] at hprod
        exact hprod
      have hge : g = 1 := by omega
      obtain ⟨ihm, ihl⟩ := ih gs2 hg3 hp1
      constructor
      · rw [mixedRadix, ihm, hge]
        simp
      · intro var mult hvar
        rw [varIdLoop, hge]
        have hm0 : mul32 mult (1 - 1) = 0 := by
          simp [mul32]
        have ha : add32 var 0 = var := by
          rw [add32_eq (by omega)]
          omega
        rw [hm0, ha]
        exact ihl var (mul32 mult r) hvar

theorem varIdLoop_eq : ∀ (rs gs : List Nat) (var mult : Nat),
    inRange gs rs = true → var + mult * (rs.prod - 1) < U32 →
    varIdLoop var mult rs gs = var + mult * mixedRadix gs rs := by
  intro rs
  induction rs with
  | nil =>
    intro gs var mult hg _
    rw [inRange_nil_right.mp hg]
    rw [show mixedRadix [] [] = 0 from rfl, Nat.mul_zero, Nat.add_zero]
    rfl
  | cons r rest ih =>
    intro gs var mult hg hbound
    cases gs with
    | nil => exact absurd hg (by simp [inRange])
    | cons g gs2 =>
      rw [inRange_cons_iff] at hg
      obtain ⟨hg1, hg2, hg3⟩ := hg
      rw [List.prod_cons] at hbound
      have hP1 : 1 ≤ rest.prod :=
        one_le_listProd (inRange_radix_ge_one hg3)
      have hr1 : 1 ≤ r := by omega
      have hrP : r ≤ r * rest.prod := by
        calc r = r * 1 := (Nat.mul_one r).symm
          _ ≤ r * rest.prod := Nat.mul_le_mul_left r hP1
      have hgP : mult * (g - 1) ≤ mult * (r * rest.prod - 1) :=
        Nat.mul_le_mul_left mult (by omega)
      have hmulg : mul32 mult (g - 1) = mult * (g - 1) := mul32_eq (by omega)
      have hadd : add32 var (mult * (g - 1)) = var + mult * (g - 1) := add32_eq (by omega)
      rw [varIdLoop, hmulg, hadd]
      rcases Nat.lt_or_ge rest.prod 2 with hps | hps
      · have hp1 : rest.prod = 1 := by omega
        obtain ⟨ihm, ihl⟩ := varIdLoop_ones rest gs2 hg3 hp1
        rw [ihl (var + mult * (g - 1)) (mul32 mult r) (by omega)]
        rw [mixedRadix, ihm, Nat.mul_zero, Nat.add_zero]
      · have hPP : r * rest.prod = r * (rest.prod - 1) + r := by
          rw [← Nat.mul_succ]
          congr 1
          omega
        have hr2 : r ≤ r * (rest.prod - 1) := by
          calc r = r * 1 := (Nat.mul_one r).symm
            _ ≤ r * (rest.prod - 1) := Nat.mul_le_mul_left r (by omega)
        have hmr : mult * r ≤ mult * (r * rest.prod - 1) :=
          Nat.mul_le_mul_left mult (by omega)
        have hmul2 : mul32 mult r = mult * r := mul32_eq (by omega)
        rw [hmul2]
        have hdistr : mult * (g - 1) + mult * r * (rest.prod - 1)
            ≤ mult * (r * rest.prod - 1) := by
          rw [Nat.mul_assoc]
          rw [← Nat.mul_add]
          exact Nat.mul_le_mul_left mult (by omega)
        rw [ih gs2 (var + mult * (g - 1)) (mult * r) hg3 (by omega)]
        rw [mixedRadix, Nat.mul_add, Nat.mul_assoc]
        omega

theorem varIdU32_eq (offset : Nat) (rs g : List Nat) (h : inRange g rs = true)
    (hfit : offset + rs.prod ≤ U32) :
    varIdU32 offset rs g = offset + mixedRadix g rs := by
  have hP1 : 1 ≤ rs.prod := one_le_listProd (inRange_radix_ge_one h)
  rw [varIdU32, varIdLoop_eq rs g offset 1 h (by omega), Nat.one_mul]

/-! ## Tiling of the variable range by the symbol blocks -/

/-- The combined block list of the layout: non-deleted functions then
non-deleted predicates, each block described by its slot radices. -/
def allBlocks (sizes : Nat → Nat) (funs preds : List FSym) : List (List Nat) :=
  blocksOf sizes funs ++ blocksOf sizes preds

theorem blockOff_cons_zero (start : Nat) (rs : List Nat) (rest : List (List Nat)) :
    blockOff start (rs :: rest) 0 = start := rfl

theorem blockOff_cons_succ (start : Nat) (rs : List Nat) (rest : List (List Nat)) (k : Nat) :
    blockOff start (rs :: rest) (k + 1) = blockOff (start + rs.prod) rest k := rfl

theorem blockOff_ge : ∀ (bs : List (List Nat)) (start k : Nat), k < bs.length →
    start ≤ blockOff start bs k := by
  intro bs
  induction bs with
  | nil =>
    intro start k h
    exact absurd h (by simp)
  | cons b rest ih =>
    intro start k h
    cases k with
    | zero => exact Nat.le_refl start
    | succ k =>
      rw [blockOff_cons_succ]
      exact Nat.le_trans (Nat.le_add_right start b.prod)
        (ih (start + b.prod) k (by simpa using h))

theorem blockOff_add_le : ∀ (bs : List (List Nat)) (start k : Nat), k < bs.length →
    blockOff start bs k + (bs.getD k []).prod ≤ layoutEnd start bs := by
  intro bs
  induction bs with
  | nil =>
    intro start k h
    exact absurd h (by simp)
  | cons b rest ih =>
    intro start k h
    cases k with
    | zero =>
      rw [blockOff_cons_zero, List.getD_cons_zero, layoutEnd_cons, layoutEnd]
      omega
    | succ k =>
      rw [blockOff_cons_succ, List.getD_cons_succ, layoutEnd_cons]
      exact ih (start + b.prod) k (by simpa using h)

theorem blockOff_disjoint : ∀ (bs : List (List Nat)) (start k k2 : Nat), k < k2 →
    k2 < bs.length →
    blockOff start bs k + (bs.getD k []).prod ≤ blockOff start bs k2 := by
  intro bs
  induction bs with
  | nil =>
    intro start k k2 _ h
    exact absurd h (by simp)
  | cons b rest ih =>
    intro start k k2 hkk h
    cases k2 with
    | zero => omega
    | succ k2 =>
      cases k with
      | zero =>
        rw [blockOff_cons_zero, List.getD_cons_zero, blockOff_cons_succ]
        exact blockOff_ge rest (start + b.prod) k2 (by simpa using h)
      | succ k =>
        rw [blockOff_cons_succ, List.getD_cons_succ, blockOff_cons_succ]
        exact ih (start + b.prod) k k2 (by omega) (by simpa using h)

theorem tiling_surj : ∀ (bs : List (List Nat)) (start v : Nat), start ≤ v →
    v < layoutEnd start bs →
    ∃ k, k < bs.length ∧ blockOff start bs k ≤ v ∧
      v < blockOff start bs k + (bs.getD k []).prod := by
  intro bs
  induction bs with
  | nil =>
    intro start v h1 h2
    rw [layoutEnd_nil] at h2
    omega
  | cons b rest ih =>
    intro start v h1 h2
    by_cases hv : v < start + b.prod
    · exact ⟨0, by simp, by rw [blockOff_cons_zero]; exact h1,
        by rw [blockOff_cons_zero, List.getD_cons_zero]; exact hv⟩
    · rw [layoutEnd_cons] at h2
      obtain ⟨k, hk, hlo, hhi⟩ := ih (start + b.prod) v (by omega) h2
      exact ⟨k + 1, by simpa using hk, by rw [blockOff_cons_succ]; exact hlo,
        by rw [blockOff_cons_succ, List.getD_cons_succ]; exact hhi⟩

theorem blocks_varId_eq (bs : List (List Nat)) (hend : layoutEnd 1 bs ≤ U32) :
    ∀ k g, k < bs.length → inRange g (bs.getD k []) = true →
      varIdU32 (blockOff 1 bs k) (bs.getD k []) g = blockVarId 1 bs k g := by
  intro k g hk hg
  rw [blockVarId]
  exact varIdU32_eq _ _ _ hg (Nat.le_trans (blockOff_add_le bs 1 k hk) hend)

theorem blocks_range (bs : List (List Nat)) :
    ∀ k g, k < bs.length → inRange g (bs.getD k []) = true →
      1 ≤ blockVarId 1 bs k g ∧ blockVarId 1 bs k g < layoutEnd 1 bs := by
  intro k g hk hg
  have h1 := blockOff_ge bs 1 k hk
  have h2 := blockOff_add_le bs 1 k hk
  have h3 := mixedRadix_lt hg
  rw [blockVarId]
  omega

theorem blocks_inj (bs : List (List Nat)) :
    ∀ k g k2 g2, k < bs.length → inRange g (bs.getD k []) = true →
      k2 < bs.length → inRange g2 (bs.getD k2 []) = true →
      blockVarId 1 bs k g = blockVarId 1 bs k2 g2 → k = k2 ∧ g = g2 := by
  intro k g k2 g2 hk hg hk2 hg2 heq
  rcases Nat.lt_trichotomy k k2 with hlt | he | hgt
  · have hd := blockOff_disjoint bs 1 k k2 hlt hk2
    have h3 := mixedRadix_lt hg
    have h4 := mixedRadix_lt hg2
    rw [blockVarId, blockVarId] at heq
    omega
  · subst he
    rw [blockVarId, blockVarId] at heq
    have hmix : mixedRadix g (bs.getD k []) = mixedRadix g2 (bs.getD k []) := by omega
    exact ⟨rfl, mixedRadix_inj hg hg2 hmix⟩
  · have hd := blockOff_disjoint bs 1 k2 k hgt hk
    have h3 := mixedRadix_lt hg
    have h4 := mixedRadix_lt hg2
    rw [blockVarId, blockVarId] at heq
    omega

theorem blocks_surj (bs : List (List Nat)) :
    ∀ v, 1 ≤ v → v < layoutEnd 1 bs →
      ∃ k g, k < bs.length ∧ inRange g (bs.getD k []) = true ∧
        blockVarId 1 bs k g = v := by
  intro v h1 h2
  obtain ⟨k, hk, hlo, hhi⟩ := tiling_surj bs 1 v h1 h2
  obtain ⟨g, hg, hmix⟩ := mixedRadix_surj (bs.getD k []) (v - blockOff 1 bs k) (by omega)
  exact ⟨k, g, hk, hg, by rw [blockVarId, hmix]; omega⟩

theorem start_le_layoutEnd (start : Nat) (bs : List (List Nat)) :
    start ≤ layoutEnd start bs := by
  rw [layoutEnd]
  omega

theorem layoutEnd_append (start : Nat) (a b2 : List (List Nat)) :
    layoutEnd start (a ++ b2) = layoutEnd (layoutEnd start a) b2 := by
  simp only [layoutEnd, blocksSum, List.map_append, List.sum_append]
  omega

theorem layoutOffsets_append : ∀ (a : List (List Nat)) (b2 : List (List Nat)) (start : Nat),
    layoutOffsets start (a ++ b2)
      = layoutOffsets start a ++ layoutOffsets (layoutEnd start a) b2 := by
  intro a
  induction a with
  | nil =>
    intro b2 start
    rw [layoutEnd_nil]
    rfl
  | cons b rest ih =>
    intro b2 start
    rw [List.cons_append,
      show layoutOffsets start ((b :: (rest ++ b2)))
        = start :: layoutOffsets (start + b.prod) (rest ++ b2) from rfl,
      ih b2 (start + b.prod),
      show layoutOffsets start (b :: rest)
        = start :: layoutOffsets (start + b.prod) rest from rfl,
      layoutEnd_cons]
    rfl

theorem offListOf_reduceOption (sizes : Nat → Nat) :
    ∀ (syms : List FSym) (off : Nat),
      (offListOf sizes off syms).reduceOption = layoutOffsets off (blocksOf sizes syms) := by
  intro syms
  induction syms with
  | nil =>
    intro off
    rfl
  | cons sym rest ih =>
    intro off
    by_cases hdel : sym.deleted
    · rw [offListOf_cons_deleted hdel sizes off rest, blocksOf_cons_deleted hdel sizes rest]
      rw [List.reduceOption_cons_of_none, ih off]
    · replace hdel : sym.deleted = false := by simpa using hdel
      rw [offListOf_cons_live hdel sizes off rest, blocksOf_cons_live hdel sizes rest]
      rw [List.reduceOption_cons_of_some, ih (off + (radicesOf sizes sym).prod)]
      rfl

/-! ## C2: exactly one result value in any satisfying assignment -/

theorem getSATLiteral_var_polarity (b : Builder) (f : Nat) (g : List Nat)
    (p1 p2 isF : Bool) :
    (getSATLiteral b f g p1 isF).var = (getSATLiteral b f g p2 isF).var := rfl

theorem getSATLiteral_pos (b : Builder) (f : Nat) (g : List Nat) (p isF : Bool) :
    (getSATLiteral b f g p isF).pos = p := rfl

theorem maxRet_mem_totVersions (b : Builder) (f : Nat) (hret : 1 ≤ maxRetSize b f) :
    maxRetSize b f ∈ totVersions b f := by
  rw [totVersions]
  split
  · rw [List.mem_map]
    exact ⟨maxRetSize b f - 1, List.mem_range.mpr (by omega), by omega⟩
  · exact List.mem_singleton.mpr rfl

theorem totality_top_mem (b : Builder) (f : Nat) {xs : List Nat}
    (hxs : inRange xs (maxArgSizes b f) = true) (hret : 1 ≤ maxRetSize b f) :
    ((List.range (maxRetSize b f)).map (fun c => getSATLiteral b f (xs ++ [c + 1]) true true))
      ++ [totMarkerLit b f (maxRetSize b f)] ∈ totalityClauses b f := by
  rw [totalityClauses, List.mem_flatMap]
  refine ⟨xs, mem_tuples.mpr hxs, ?_⟩
  rw [List.mem_map]
  exact ⟨maxRetSize b f, maxRet_mem_totVersions b f hret, rfl⟩

theorem funcDef_mem (b : Builder) (f : Nat) {y z : Nat} {xs : List Nat}
    (hy1 : 1 ≤ y) (hyr : y ≤ maxRetSize b f) (hz1 : 1 ≤ z) (hzr : z ≤ maxRetSize b f)
    (hxs : inRange xs (maxArgSizes b f) = true) (hyz : y < z) :
    [getSATLiteral b f (xs ++ [y]) false true,
     getSATLiteral b f (xs ++ [z]) false true] ∈ funcDefClauses b f := by
  rw [funcDefClauses, List.mem_filterMap]
  refine ⟨y :: z :: xs, ?_, ?_⟩
  · rw [mem_tuples]
    simp [inRange, hy1, hyr, hz1, hzr, hxs]
  · simp [hyz]

/-- Under the solver assumptions of the current query, the marker literal
closing the top totality clause of `f` does not hold in the assignment:
in CONTOUR mode the top marker of the result's distinct sort is assumed
false, in SBMEAM mode its totality marker is assumed true. -/
theorem top_marker_unsat (b : Builder) (f : Nat) (asg : Nat → Bool)
    (hassum : ∀ l ∈ assumptionLits b, asg l.var = l.pos)
    (hd : retDSort b f < b.distinctSortSizes.length) :
    ¬ asg (totMarkerLit b f (maxRetSize b f)).var
        = (totMarkerLit b f (maxRetSize b f)).pos := by
  by_cases hx : b.xmass
  · have hmem : (⟨b.marker_offsets (retDSort b f) + (dSize b (retDSort b f) - 1), false⟩ : SLit)
        ∈ assumptionLits b := by
      rw [assumptionLits, if_pos hx, List.mem_map]
      exact ⟨retDSort b f, List.mem_range.mpr hd, rfl⟩
    have hval := hassum _ hmem
    rw [totMarkerLit, if_pos hx, if_pos rfl]
    intro hcontra
    rw [show ((⟨b.marker_offsets (retDSort b f) + (dSize b (retDSort b f) - 1), false⟩ : SLit).var)
        = b.marker_offsets (retDSort b f) + (dSize b (retDSort b f) - 1) from rfl] at hval
    rw [show ((⟨b.marker_offsets (retDSort b f)
        + (dSize b (retDSort b f) - 1), true⟩ : SLit).var)
        = b.marker_offsets (retDSort b f) + (dSize b (retDSort b f) - 1) from rfl,
      show ((⟨b.marker_offsets (retDSort b f)
        + (dSize b (retDSort b f) - 1), true⟩ : SLit).pos) = true from rfl] at hcontra
    rw [hval] at hcontra
    exact absurd hcontra (by simp)
  · replace hx : b.xmass = false := by simpa using hx
    have hmem : (⟨b.totalityMarker_offset + retDSort b f, true⟩ : SLit)
        ∈ assumptionLits b := by
      rw [assumptionLits, if_neg (by simp [hx]), List.mem_append]
      exact Or.inl (List.mem_map.mpr ⟨retDSort b f, List.mem_range.mpr hd, rfl⟩)
    have hval := hassum _ hmem
    rw [totMarkerLit, if_neg (by simp [hx])]
    intro hcontra
    rw [show ((⟨b.totalityMarker_offset + retDSort b f, true⟩ : SLit).var)
        = b.totalityMarker_offset + retDSort b f from rfl] at hval
    rw [show ((⟨b.totalityMarker_offset + retDSort b f, false⟩ : SLit).var)
        = b.totalityMarker_offset + retDSort b f from rfl,
      show ((⟨b.totalityMarker_offset + retDSort b f, false⟩ : SLit).pos) = false from rfl]
      at hcontra
    rw [hval] at hcontra
    exact absurd hcontra (by simp)

/-- C2: in any assignment satisfying the emitted totality and
functional-definition clauses of a non-deleted function `f` under the
current solver assumptions, for every argument tuple within the per-sort
bounds exactly one result value's variable is true — at least one through
the totality clause of the top result cardinality, at most one through
the pairwise functional-definition clauses. -/
theorem c2_exactly_one_result (b : Builder) (f : Nat) (asg : Nat → Bool) (xs : List Nat)
    (hsat_t : ∀ cl ∈ totalityClauses b f, satClause asg cl)
    (hsat_d : ∀ cl ∈ funcDefClauses b f, satClause asg cl)
    (hassum : ∀ l ∈ assumptionLits b, asg l.var = l.pos)
    (hd : retDSort b f < b.distinctSortSizes.length)
    (hxs : inRange xs (maxArgSizes b f) = true)
    (hret : 1 ≤ maxRetSize b f) :
    ∃! r, (1 ≤ r ∧ r ≤ maxRetSize b f) ∧
      asg (getSATLiteral b f (xs ++ [r]) true true).var = true := by
  have hpair : ∀ y z, 1 ≤ y → y ≤ maxRetSize b f → 1 ≤ z → z ≤ maxRetSize b f → y < z →
      ¬ (asg (getSATLiteral b f (xs ++ [y]) true true).var = true
          ∧ asg (getSATLiteral b f (xs ++ [z]) true true).var = true) := by
    intro y z hy1 hyr hz1 hzr hyz hcontra
    obtain ⟨hvy, hvz⟩ := hcontra
    obtain ⟨l, hl, hval⟩ := hsat_d _ (funcDef_mem b f hy1 hyr hz1 hzr hxs hyz)
    simp only [List.mem_cons, List.not_mem_nil, or_false] at hl
    rcases hl with hl | hl
    · rw [hl] at hval
      rw [getSATLiteral_var_polarity b f (xs ++ [y]) false true true] at hval
      rw [hvy, getSATLiteral_pos] at hval
      exact absurd hval (by simp)
    · rw [hl] at hval
      rw [getSATLiteral_var_polarity b f (xs ++ [z]) false true true] at hval
      rw [hvz, getSATLiteral_pos] at hval
      exact absurd hval (by simp)
  obtain ⟨l, hl, hval⟩ := hsat_t _ (totality_top_mem b f hxs hret)
  rw [List.mem_append] at hl
  rcases hl with hl | hl
  · rw [List.mem_map] at hl
    obtain ⟨c, hc, rfl⟩ := hl
    rw [List.mem_range] at hc
    rw [getSATLiteral_pos] at hval
    refine ⟨c + 1, ⟨⟨by omega, by omega⟩, hval⟩, ?_⟩
    intro r hr
    obtain ⟨⟨hr1, hrr⟩, hvr⟩ := hr
    by_contra hne
    rcases Nat.lt_or_ge r (c + 1) with hlt | hge
    · exact hpair r (c + 1) hr1 hrr (by omega) (by omega) hlt ⟨hvr, hval⟩
    · exact hpair (c + 1) r (by omega) (by omega) hr1 hrr (by omega) ⟨hval, hvr⟩
  · rw [List.mem_singleton] at hl
    rw [hl] at hval
    exact absurd hval (top_marker_unsat b f asg hassum hd)

/-- Witness for C2: a constant of a sort of size 2 under CONTOUR markers;
the assignment sets the constant to value 1 and the first marker true. -/
theorem c2_exactly_one_result_witness :
    ∃! r, (1 ≤ r ∧ r ≤ maxRetSize
        ⟨1, fun _ => false, fun _ => [0], fun _ => [], fun _ => 2, fun _ => 9, fun _ => 0,
         fun _ => false, [2], true, fun _ => 1, fun _ => 1, fun _ => 3, 0, 0⟩ 0) ∧
      (fun v => decide (v = 1) || decide (v = 3))
        (getSATLiteral
          ⟨1, fun _ => false, fun _ => [0], fun _ => [], fun _ => 2, fun _ => 9, fun _ => 0,
           fun _ => false, [2], true, fun _ => 1, fun _ => 1, fun _ => 3, 0, 0⟩
          0 ([] ++ [r]) true true).var = true :=
  c2_exactly_one_result
    ⟨1, fun _ => false, fun _ => [0], fun _ => [], fun _ => 2, fun _ => 9, fun _ => 0,
     fun _ => false, [2], true, fun _ => 1, fun _ => 1, fun _ => 3, 0, 0⟩
    0 (fun v => decide (v = 1) || decide (v = 3)) []
    (by decide) (by decide) (by decide) (by decide) (by decide) (by decide)

/-- Witness for C6 at the concrete builder and its emitted clause. -/
theorem c6_amended_witness :
    ∃ i ∈ totVersions cfgBound 0,
      ([(⟨1, true⟩ : SLit), ⟨11, true⟩] : List SLit).getLast? = some (totMarkerLit cfgBound 0 i) ∧
      (totMarkerLit cfgBound 0 i).pos = true ∧
      (totMarkerLit cfgBound 0 i).var
        = cfgBound.marker_offsets (retDSort cfgBound 0)
          + (if i = maxRetSize cfgBound 0 then dSize cfgBound (retDSort cfgBound 0) - 1
             else min (i - 1) (dSize cfgBound (retDSort cfgBound 0) - 1)) :=
  c6_amended cfgBound 0 rfl (by decide) [⟨1, true⟩, ⟨11, true⟩] (by decide)


/-! ## C1: the layout bijection -/

/-- C1 counterexample: a single constant of a sort of size 1 under CONTOUR
markers.  Reset lays out variable 1 for the constant, variable 2 as the
sort marker, and `curMaxVar = 2`; no symbol/tuple pair maps to variable 2,
so `varId` is not a bijection onto `[1, curMaxVar]` — the marker region
occupies the top of the range. -/
theorem c1_counterexample :
    reset 100 (fun _ => 1) [⟨false, [0]⟩] [] [1] true
      = ResetResult.ready ⟨[some 1], [], [2], 0, 0, 2⟩ ∧
    ¬ ∃ k g, k < (allBlocks (fun _ => 1) [⟨false, [0]⟩] []).length ∧
        inRange g ((allBlocks (fun _ => 1) [⟨false, [0]⟩] []).getD k []) = true ∧
        blockVarId 1 (allBlocks (fun _ => 1) [⟨false, [0]⟩] []) k g = 2 := by
  constructor
  · decide
  · rintro ⟨k, g, hk, hg, hv⟩
    have hlen : (allBlocks (fun _ => 1) [⟨false, [0]⟩] []).length = 1 := by decide
    have hk0 : k = 0 := by omega
    subst hk0
    have hbs : (allBlocks (fun _ => 1) [⟨false, [0]⟩] []).getD 0 [] = [1] := by decide
    rw [hbs] at hg
    have hgeq : g = [1] := by
      cases g with
      | nil => exact absurd hg (by simp [inRange])
      | cons a t =>
        rw [inRange_cons_iff] at hg
        obtain ⟨h1, h2, h3⟩ := hg
        rw [inRange_nil_right] at h3
        rw [h3]
        congr 1
        omega
    subst hgeq
    exact absurd hv (by decide)

/-- C1 amended: when the nominal layout fits below `VAR_MAX` (and sizes
are positive), `reset` succeeds, records exactly the consecutive nominal
block offsets for the non-deleted functions then predicates, and sets
`curMaxVar` to the end of the marker region; the variable computed by
`getSATLiteral` equals the block offset plus the mixed-radix index
`Σ (gᵢ−1) × Π_{j<i} size(sortⱼ)`; distinct tuples of one symbol and blocks
of distinct symbols map to distinct variables; and `varId` is a bijection
onto `[1, M−1]` where `M − 1 = curMaxVar − markerTotal` — the amendment:
the top `markerTotal` ids of `[1, curMaxVar]` belong to the marker region,
not to `varId`. -/
theorem c1_amended (vmax : Nat) (sizes : Nat → Nat) (funs preds : List FSym)
    (dsizes : List Nat) (xmass : Bool)
    (hsz : ∀ s, 1 ≤ sizes s) (hvm : vmax < U32)
    (hfit : layoutEnd 1 (allBlocks sizes funs preds) + markerTotal xmass dsizes ≤ vmax) :
    ∃ L, reset vmax sizes funs preds dsizes xmass = ResetResult.ready L ∧
      L.f_off = offListOf sizes 1 funs ∧
      L.p_off = offListOf sizes (layoutEnd 1 (blocksOf sizes funs)) preds ∧
      L.f_off.reduceOption ++ L.p_off.reduceOption
        = layoutOffsets 1 (allBlocks sizes funs preds) ∧
      L.curMaxVar
        = layoutEnd 1 (allBlocks sizes funs preds) - 1 + markerTotal xmass dsizes ∧
      (xmass = true →
        L.marker_off = markerOffList (layoutEnd 1 (allBlocks sizes funs preds)) dsizes) ∧
      (xmass = false →
        L.totalityMarker = layoutEnd 1 (allBlocks sizes funs preds) ∧
        L.instancesMarker = layoutEnd 1 (allBlocks sizes funs preds) + dsizes.length) ∧
      (∀ k g, k < (allBlocks sizes funs preds).length →
        inRange g ((allBlocks sizes funs preds).getD k []) = true →
        varIdU32 (blockOff 1 (allBlocks sizes funs preds) k)
            ((allBlocks sizes funs preds).getD k []) g
          = blockVarId 1 (allBlocks sizes funs preds) k g) ∧
      (∀ k g, k < (allBlocks sizes funs preds).length →
        inRange g ((allBlocks sizes funs preds).getD k []) = true →
        1 ≤ blockVarId 1 (allBlocks sizes funs preds) k g ∧
          blockVarId 1 (allBlocks sizes funs preds) k g
            < layoutEnd 1 (allBlocks sizes funs preds)) ∧
      (∀ k g k2 g2, k < (allBlocks sizes funs preds).length →
        inRange g ((allBlocks sizes funs preds).getD k []) = true →
        k2 < (allBlocks sizes funs preds).length →
        inRange g2 ((allBlocks sizes funs preds).getD k2 []) = true →
        blockVarId 1 (allBlocks sizes funs preds) k g
          = blockVarId 1 (allBlocks sizes funs preds) k2 g2 →
        k = k2 ∧ g = g2) ∧
      (∀ v, 1 ≤ v → v < layoutEnd 1 (allBlocks sizes funs preds) →
        ∃ k g, k < (allBlocks sizes funs preds).length ∧
          inRange g ((allBlocks sizes funs preds).getD k []) = true ∧
          blockVarId 1 (allBlocks sizes funs preds) k g = v) := by
  have hABend : layoutEnd 1 (allBlocks sizes funs preds)
      = layoutEnd (layoutEnd 1 (blocksOf sizes funs)) (blocksOf sizes preds) :=
    layoutEnd_append 1 (blocksOf sizes funs) (blocksOf sizes preds)
  have hfe1 : 1 ≤ layoutEnd 1 (blocksOf sizes funs) := by
    rw [layoutEnd]
    omega
  have hfele : layoutEnd 1 (blocksOf sizes funs)
      ≤ layoutEnd 1 (allBlocks sizes funs preds) := by
    rw [hABend]
    exact start_le_layoutEnd _ _
  have hmt0 : 0 ≤ markerTotal xmass dsizes := Nat.zero_le _
  have hMle : layoutEnd 1 (allBlocks sizes funs preds) ≤ vmax := by omega
  have hN1 : 1 ≤ layoutEnd (layoutEnd 1 (blocksOf sizes funs)) (blocksOf sizes preds) :=
    Nat.le_trans hfe1 (start_le_layoutEnd _ _)
  have hw1 := symWalk_eq vmax sizes true hvm hsz funs 1 (by omega) (by omega)
  have hw2 := symWalk_eq vmax sizes false hvm hsz preds (layoutEnd 1 (blocksOf sizes funs))
    hfe1 (by rw [← hABend]; omega)
  have hMend : layoutEnd 1 (allBlocks sizes funs preds) ≤ U32 := by omega
  have hredu : (offListOf sizes 1 funs).reduceOption
      ++ (offListOf sizes (layoutEnd 1 (blocksOf sizes funs)) preds).reduceOption
      = layoutOffsets 1 (allBlocks sizes funs preds) := by
    rw [offListOf_reduceOption sizes funs 1,
      offListOf_reduceOption sizes preds (layoutEnd 1 (blocksOf sizes funs)),
      allBlocks, layoutOffsets_append]
  cases xmass with
  | true =>
    have hsum : markerTotal true dsizes = dsizes.sum := rfl
    rw [hsum] at hfit
    have hm := markerWalk_eq vmax hvm dsizes
      (layoutEnd (layoutEnd 1 (blocksOf sizes funs)) (blocksOf sizes preds))
      hN1 (by rw [← hABend]; omega)
    refine ⟨⟨offListOf sizes 1 funs,
      offListOf sizes (layoutEnd 1 (blocksOf sizes funs)) preds,
      markerOffList (layoutEnd (layoutEnd 1 (blocksOf sizes funs)) (blocksOf sizes preds))
        dsizes,
      0, 0,
      layoutEnd (layoutEnd 1 (blocksOf sizes funs)) (blocksOf sizes preds)
        + dsizes.sum - 1⟩,
      ?_, rfl, rfl, hredu, ?_, ?_, ?_, ?_, ?_, ?_, ?_⟩
    · simp [reset, hw1, hw2, hm]
    · show layoutEnd (layoutEnd 1 (blocksOf sizes funs)) (blocksOf sizes preds)
          + dsizes.sum - 1 = _
      rw [hABend, hsum]
      omega
    · intro _
      show markerOffList _ dsizes = _
      rw [hABend]
    · intro hcontra
      exact absurd hcontra (by simp)
    · exact blocks_varId_eq (allBlocks sizes funs preds) hMend
    · exact blocks_range (allBlocks sizes funs preds)
    · exact blocks_inj (allBlocks sizes funs preds)
    · exact blocks_surj (allBlocks sizes funs preds)
  | false =>
    have h2n : markerTotal false dsizes = 2 * dsizes.length := rfl
    rw [h2n] at hfit
    have hNfit : layoutEnd (layoutEnd 1 (blocksOf sizes funs)) (blocksOf sizes preds)
        + 2 * dsizes.length ≤ vmax := by
      rw [← hABend]
      omega
    have hc1 : ¬ sub32 vmax dsizes.length
        < layoutEnd (layoutEnd 1 (blocksOf sizes funs)) (blocksOf sizes preds) := by
      rw [sub32_eq (by omega) hvm]
      omega
    have ha1 : add32 (layoutEnd (layoutEnd 1 (blocksOf sizes funs)) (blocksOf sizes preds))
        dsizes.length
        = layoutEnd (layoutEnd 1 (blocksOf sizes funs)) (blocksOf sizes preds)
          + dsizes.length := add32_eq (by omega)
    have hc2 : ¬ sub32 vmax dsizes.length
        < layoutEnd (layoutEnd 1 (blocksOf sizes funs)) (blocksOf sizes preds)
          + dsizes.length := by
      rw [sub32_eq (by omega) hvm]
      omega
    have ha2 : add32 (layoutEnd (layoutEnd 1 (blocksOf sizes funs)) (blocksOf sizes preds)
          + dsizes.length) dsizes.length
        = layoutEnd (layoutEnd 1 (blocksOf sizes funs)) (blocksOf sizes preds)
          + dsizes.length + dsizes.length := add32_eq (by omega)
    refine ⟨⟨offListOf sizes 1 funs,
      offListOf sizes (layoutEnd 1 (blocksOf sizes funs)) preds,
      [],
      layoutEnd (layoutEnd 1 (blocksOf sizes funs)) (blocksOf sizes preds),
      layoutEnd (layoutEnd 1 (blocksOf sizes funs)) (blocksOf sizes preds) + dsizes.length,
      layoutEnd (layoutEnd 1 (blocksOf sizes funs)) (blocksOf sizes preds)
        + dsizes.length + dsizes.length - 1⟩,
      ?_, rfl, rfl, hredu, ?_, ?_, ?_, ?_, ?_, ?_, ?_⟩
    · simp [reset, hw1, hw2, hc1, ha1, hc2, ha2]
    · show layoutEnd (layoutEnd 1 (blocksOf sizes funs)) (blocksOf sizes preds)
          + dsizes.length + dsizes.length - 1 = _
      rw [hABend, h2n]
      omega
    · intro hcontra
      exact absurd hcontra (by simp)
    · intro _
      constructor
      · show layoutEnd (layoutEnd 1 (blocksOf sizes funs)) (blocksOf sizes preds) = _
        rw [hABend]
      · show layoutEnd (layoutEnd 1 (blocksOf sizes funs)) (blocksOf sizes preds)
            + dsizes.length = _
        rw [hABend]
    · exact blocks_varId_eq (allBlocks sizes funs preds) hMend
    · exact blocks_range (allBlocks sizes funs preds)
    · exact blocks_inj (allBlocks sizes funs preds)
    · exact blocks_surj (allBlocks sizes funs preds)

/-- Witness for C1 at a concrete configuration (one live constant, one
deleted function, one distinct sort of size 2, CONTOUR markers). -/
theorem c1_amended_witness :
    ∃ L, reset 100 (fun _ => 2) [⟨false, [0]⟩, ⟨true, [0]⟩] [] [2] true
      = ResetResult.ready L := by
  obtain ⟨L, hL, -⟩ := c1_amended 100 (fun _ => 2) [⟨false, [0]⟩, ⟨true, [0]⟩] [] [2] true
    (fun _ => Nat.le_of_lt Nat.one_lt_two) (by decide) (by decide)
  exact ⟨L, hL⟩

end FMB
